import Mathlib

/-!
# MRMW_Snapshot: a shallow embedding of `wfs-CS21BTECH11023.cpp`

The development has two layers, both translated from the class `MRMW_Snapshot`:

* a sequential layer, in which `update` and `snapshot` are functions on the object
  state (every indexed access is checked and reports `Fault.outOfRange`);
* an interleaving layer, in which every `load` and every `store` of a cell is one
  atomic step of a thread and a schedule picks the thread that moves next.

Machine integers (`int`, 32 bits) are modelled by `Int`; the only arithmetic the class
performs on them, `oldValue.stamp + 1`, is wrapped to 32 bits by `wrapInt`.
-/

namespace WFS

/-! ## Data model -/

/-- The struct `TimestampValue<int>`: a value together with its stamp. -/
structure TimestampValue where
  value : Int
  stamp : Int
deriving DecidableEq, Repr

/-- The default constructor `TimestampValue()`: `value(T()), stamp(0)`. -/
def TimestampValue.zero : TimestampValue := ⟨0, 0⟩

/-- The ways in which the total embedding can fail. -/
inductive Fault where
  | outOfRange
  | outOfFuel
  | notEnabled
deriving DecidableEq, Repr

/-- Smallest value of the 32-bit `int`. -/
def INT_MIN : Int := -2147483648

/-- Largest value of the 32-bit `int`. -/
def INT_MAX : Int := 2147483647

/-- Reduction of an integer to the 32-bit two-complement range. C++ gives no result to
an `int` addition that overflows; the embedding takes the wrap-around that the compiled
increment performs. -/
def wrapInt (x : Int) : Int := (x + 2147483648) % 4294967296 - 2147483648

/-- Checked read `xs[i]` with an `int` index. -/
def readAt {α : Type} (xs : List α) (i : Int) : Except Fault α :=
  if 0 ≤ i then
    match xs[i.toNat]? with
    | some x => .ok x
    | none => .error .outOfRange
  else .error .outOfRange

/-- Checked write `xs[i] = x` with an `int` index. -/
def writeAt {α : Type} (xs : List α) (i : Int) (x : α) : Except Fault (List α) :=
  if 0 ≤ i ∧ i.toNat < xs.length then .ok (xs.set i.toNat x) else .error .outOfRange

/-- The members of `class MRMW_Snapshot`: `snap_size` and the shared `array` of cells. -/
structure MRMW_Snapshot where
  snap_size : Nat
  array : List TimestampValue
deriving DecidableEq, Repr

/-! ## Sequential layer -/

/-- The loop of the constructor: `array[i].store(TimestampValue<int>(0, 0))` for
`i = 0 .. size - 1`; the first argument counts the iterations that remain. -/
def constructLoop : Nat → Nat → List TimestampValue → Except Fault (List TimestampValue)
  | 0, _, array => .ok array
  | n + 1, i, array => do
      let array ← writeAt array (i : Int) ⟨0, 0⟩
      constructLoop n (i + 1) array

/-- The constructor `MRMW_Snapshot(int size)` for `size ≥ 0`: `snap_size(size)`,
`array(size)`, then the initialising loop. -/
def MRMW_Snapshot.construct (size : Nat) : Except Fault MRMW_Snapshot := do
  let array ← constructLoop size 0 (List.replicate size TimestampValue.zero)
  pure { snap_size := size, array := array }

/-- The method `update(int loc, int value)`: load the cell, build the new pair with the
stamp advanced by one, store it. -/
def MRMW_Snapshot.update (self : MRMW_Snapshot) (loc value : Int) :
    Except Fault MRMW_Snapshot := do
  let oldValue ← readAt self.array loc
  let newValue : TimestampValue := ⟨value, wrapInt (oldValue.stamp + 1)⟩
  let array ← writeAt self.array loc newValue
  pure { self with array := array }

/-- The collect loop of `snapshot` (source lines 56 to 59), reading the cells from `cells`;
the first argument counts the iterations that remain. -/
def collectLoop (cells : List TimestampValue) :
    Nat → Nat → List TimestampValue → Int → Except Fault (List TimestampValue × Int)
  | 0, _, localSnapshot, maxStamp => .ok (localSnapshot, maxStamp)
  | n + 1, i, localSnapshot, maxStamp => do
      let loaded ← readAt cells (i : Int)
      let localSnapshot ← writeAt localSnapshot (i : Int) loaded
      let kept ← readAt localSnapshot (i : Int)
      collectLoop cells n (i + 1) localSnapshot (max maxStamp kept.stamp)

/-- The verify loop of `snapshot` (source lines 62 to 68), reading the cells from `cells`;
the result is `true` when the loop reaches `return snapshot()`. -/
def verifyLoop (cells : List TimestampValue) : Nat → Nat → Int → Except Fault Bool
  | 0, _, _ => .ok false
  | n + 1, i, maxStamp => do
      let currentValue ← readAt cells (i : Int)
      if currentValue.stamp > maxStamp then pure true
      else verifyLoop cells n (i + 1) maxStamp

/-- The loop of `taketheSanpshot`: `result[i] = snap[i].value`. -/
def extractLoop (snap : List TimestampValue) :
    Nat → Nat → List Int → Except Fault (List Int)
  | 0, _, result => .ok result
  | n + 1, i, result => do
      let cell ← readAt snap (i : Int)
      let result ← writeAt result (i : Int) cell.value
      extractLoop snap n (i + 1) result

/-- The private method `taketheSanpshot(snap)`: `vector<int> result(snap_size)` filled
with the value fields. -/
def taketheSanpshot (snap_size : Nat) (snap : List TimestampValue) :
    Except Fault (List Int) :=
  extractLoop snap snap_size 0 (List.replicate snap_size 0)

/-- The local buffer a call of `snapshot()` starts with:
`vector<TimestampValue<int>> localSnapshot(snap_size)`. -/
def freshBuffer (snap_size : Nat) : List TimestampValue :=
  List.replicate snap_size TimestampValue.zero

/-- One attempt of `snapshot`, the body without the recursive call: the collect pass reads
`p1`, the verify pass reads `p2`. The result is `none` when the body reaches
`return snapshot()` and `some r` when it returns `taketheSanpshot(localSnapshot)`. -/
def attempt (snap_size : Nat) (p1 p2 : List TimestampValue) :
    Except Fault (Option (List Int)) := do
  let (localSnapshot, maxStamp) ←
    collectLoop p1 snap_size 0 (freshBuffer snap_size) (-1)
  let restart ← verifyLoop p2 snap_size 0 maxStamp
  if restart then pure none
  else do
    let result ← taketheSanpshot snap_size localSnapshot
    pure (some result)

/-- The method `snapshot()` run with no concurrent operation: both passes read the same
array. The fuel bounds the depth of the recursion `return snapshot()`; the result carries
the returned vector, the number of recursive calls that were made, and the object state. -/
def MRMW_Snapshot.snapshotRun (self : MRMW_Snapshot) :
    Nat → Except Fault (List Int × Nat × MRMW_Snapshot)
  | 0 => .error .outOfFuel
  | fuel + 1 => do
      match ← attempt self.snap_size self.array self.array with
      | none =>
          let (result, calls, self) ← MRMW_Snapshot.snapshotRun self fuel
          pure (result, calls + 1, self)
      | some result => pure (result, 0, self)

/-- The vector returned by `snapshot()`. -/
def MRMW_Snapshot.snapshot (self : MRMW_Snapshot) (fuel : Nat) : Except Fault (List Int) :=
  (fun r => r.1) <$> self.snapshotRun fuel

/-- A sequence of `update` calls applied one after another. -/
def MRMW_Snapshot.updates (self : MRMW_Snapshot) :
    List (Int × Int) → Except Fault MRMW_Snapshot
  | [] => .ok self
  | (loc, value) :: rest => do
      let self ← self.update loc value
      MRMW_Snapshot.updates self rest

/-- The value most recently written to location `i` by a sequence of updates, and `init`
when there is none. -/
def lastWrite (init : Int) (i : Nat) : List (Int × Int) → Int
  | [] => init
  | (loc, value) :: rest => lastWrite (if loc = (i : Int) then value else init) i rest

/-- The value `maxStamp` holds after the collect loop has read `cells`, from the start
value `m`. -/
def maxStampFrom (m : Int) (cells : List TimestampValue) : Int :=
  cells.foldl (fun acc c => max acc c.stamp) m

/-! ## Interleaving layer -/

/-- The place of a thread in the code of the class, with the locals that are live there.

* `idle`: outside every method call;
* `updateLoad`: inside `update(loc, value)`, before the load of source line 46;
* `updateStore`: after the load, before the store of source line 48;
* `collect i`: inside `snapshot()`, at the test of the collect loop with counter `i`;
* `verify i`: at the test of the verify loop with counter `i`. -/
inductive Pc where
  | idle
  | updateLoad (loc value : Int)
  | updateStore (loc value : Int) (oldValue : TimestampValue)
  | collect (i : Nat) (localSnapshot : List TimestampValue) (maxStamp : Int)
  | verify (i : Nat) (localSnapshot : List TimestampValue) (maxStamp : Int)
deriving DecidableEq, Repr

/-- The observable events of an execution, recorded newest first in `System.history`. -/
inductive Event where
  | updateCall (tid : Nat) (loc value : Int)
  | store (tid : Nat) (loc : Int) (cell : TimestampValue)
  | snapshotCall (tid : Nat)
  | snapshotReturn (tid : Nat) (result : List Int)
deriving DecidableEq, Repr

/-- What a schedule can ask for: a thread calls a method, or a thread inside a call
executes its next step. -/
inductive Action where
  | callUpdate (tid : Nat) (loc value : Int)
  | callSnapshot (tid : Nat)
  | run (tid : Nat)
deriving DecidableEq, Repr

/-- One shared object, the threads that use it, and the record of what has happened. -/
structure System where
  object : MRMW_Snapshot
  threads : List Pc
  history : List Event
deriving DecidableEq, Repr

/-- The next step of thread `tid` when it stands at `pc`. Every step makes at most one
access to the shared array. -/
def runThread (s : System) (tid : Nat) : Pc → Except Fault System
  | .idle => .error .notEnabled
  | .updateLoad loc value => do
      let oldValue ← readAt s.object.array loc
      pure { s with threads := s.threads.set tid (.updateStore loc value oldValue) }
  | .updateStore loc value oldValue => do
      let newValue : TimestampValue := ⟨value, wrapInt (oldValue.stamp + 1)⟩
      let array ← writeAt s.object.array loc newValue
      pure { object := { s.object with array := array }
             threads := s.threads.set tid .idle
             history := .store tid loc newValue :: s.history }
  | .collect i localSnapshot maxStamp =>
      if i < s.object.snap_size then do
        let loaded ← readAt s.object.array (i : Int)
        let localSnapshot ← writeAt localSnapshot (i : Int) loaded
        let kept ← readAt localSnapshot (i : Int)
        pure { s with
          threads := s.threads.set tid (.collect (i + 1) localSnapshot (max maxStamp kept.stamp)) }
      else
        pure { s with threads := s.threads.set tid (.verify 0 localSnapshot maxStamp) }
  | .verify i localSnapshot maxStamp =>
      if i < s.object.snap_size then do
        let currentValue ← readAt s.object.array (i : Int)
        if currentValue.stamp > maxStamp then
          pure { s with
            threads := s.threads.set tid (.collect 0 (freshBuffer s.object.snap_size) (-1)) }
        else
          pure { s with threads := s.threads.set tid (.verify (i + 1) localSnapshot maxStamp) }
      else do
        let result ← taketheSanpshot s.object.snap_size localSnapshot
        pure { s with
          threads := s.threads.set tid .idle
          history := .snapshotReturn tid result :: s.history }

/-- One step of the system. -/
def step (s : System) : Action → Except Fault System
  | .callUpdate tid loc value =>
      match s.threads[tid]? with
      | some .idle =>
          .ok { s with
            threads := s.threads.set tid (.updateLoad loc value)
            history := .updateCall tid loc value :: s.history }
      | _ => .error .notEnabled
  | .callSnapshot tid =>
      match s.threads[tid]? with
      | some .idle =>
          .ok { s with
            threads := s.threads.set tid (.collect 0 (freshBuffer s.object.snap_size) (-1))
            history := .snapshotCall tid :: s.history }
      | _ => .error .notEnabled
  | .run tid =>
      match s.threads[tid]? with
      | some pc => runThread s tid pc
      | none => .error .notEnabled

/-- The system after construction of the object, with `nthreads` idle threads. -/
def System.initial (size nthreads : Nat) : Except Fault System := do
  let object ← MRMW_Snapshot.construct size
  pure { object := object, threads := List.replicate nthreads .idle, history := [] }

/-- The state a schedule leads to. -/
def exec (s : System) : List Action → Except Fault System
  | [] => .ok s
  | a :: rest => do
      let s ← step s a
      exec s rest

/-- All the states a schedule passes through, the first and the last included. -/
def trace (s : System) : List Action → Except Fault (List System)
  | [] => .ok [s]
  | a :: rest => do
      let next ← step s a
      let states ← trace next rest
      pure (s :: states)

/-- The states an execution from a freshly constructed object can reach. -/
inductive Reachable : System → Prop where
  | initial (size nthreads : Nat) (s : System) :
      System.initial size nthreads = .ok s → Reachable s
  | step (s s' : System) (a : Action) : Reachable s → step s a = .ok s' → Reachable s'

/-- The values held by the cells of the shared array, in location order. -/
def System.values (s : System) : List Int := s.object.array.map (fun c => c.value)

/-- The stamps held by the cells of the shared array, in location order. -/
def System.stamps (s : System) : List Int := s.object.array.map (fun c => c.stamp)

/-- The quantity the specification calls `maxVersion`: the maximum version among the
cells read in the collect pass, and `-1` when there is no cell. -/
def specMaxVersion : List TimestampValue → Int
  | [] => -1
  | c :: rest => rest.foldl (fun acc d => max acc d.stamp) c.stamp

/-- The threshold of the verify pass as the code computes it: the greater of `-1`, the
value `maxStamp` starts with, and the maximum version among the cells read in the collect
pass. -/
def flooredMaxVersion (p1 : List TimestampValue) : Int :=
  max (-1) (specMaxVersion p1)

/-- Whether a thread stands inside a call of `snapshot()`. -/
def Pc.inSnapshot : Pc → Bool
  | .collect _ _ _ => true
  | .verify _ _ _ => true
  | _ => false

/-- A schedule for two cells, a reader (thread 0) and a writer (thread 1): the reader
calls `snapshot()` and collects cell 0; the writer runs `update(0, 7)` and then
`update(1, 8)` to completion; the reader collects cell 1, runs its verify pass and
returns. -/
def staleCollectSchedule : List Action :=
  [.callSnapshot 0, .run 0,
   .callUpdate 1 0 7, .run 1, .run 1,
   .callUpdate 1 1 8, .run 1, .run 1,
   .run 0, .run 0, .run 0, .run 0, .run 0]

/-- A schedule for one cell, two writers (threads 0 and 1) and a reader (thread 2):
writer 0 calls `update(0, 5)` and loads the cell; writer 1 runs `update(0, 6)` and
`update(0, 7)` to completion; the reader runs a whole `snapshot()`; writer 0 stores; the
reader calls `snapshot()` again and collects the cell. -/
def lostUpdateSchedule : List Action :=
  [.callUpdate 0 0 5, .run 0,
   .callUpdate 1 0 6, .run 1, .run 1,
   .callUpdate 1 0 7, .run 1, .run 1,
   .callSnapshot 2, .run 2, .run 2, .run 2, .run 2,
   .run 0,
   .callSnapshot 2, .run 2]

/-- The steps of the system, case by case: `StepCase s a s'` holds when action `a` leads
from `s` to `s'`. It is the graph of `step`, see `step_inv` and `step_of_case`. -/
inductive StepCase : System → Action → System → Prop where
  | callUpdate (s : System) (tid : Nat) (loc value : Int) :
      s.threads[tid]? = some .idle →
      StepCase s (.callUpdate tid loc value)
        { s with
          threads := s.threads.set tid (.updateLoad loc value)
          history := .updateCall tid loc value :: s.history }
  | callSnapshot (s : System) (tid : Nat) :
      s.threads[tid]? = some .idle →
      StepCase s (.callSnapshot tid)
        { s with
          threads := s.threads.set tid (.collect 0 (freshBuffer s.object.snap_size) (-1))
          history := .snapshotCall tid :: s.history }
  | load (s : System) (tid : Nat) (loc value : Int) (oldValue : TimestampValue) :
      s.threads[tid]? = some (.updateLoad loc value) →
      readAt s.object.array loc = .ok oldValue →
      StepCase s (.run tid)
        { s with threads := s.threads.set tid (.updateStore loc value oldValue) }
  | store (s : System) (tid : Nat) (loc value : Int) (oldValue : TimestampValue)
      (array : List TimestampValue) :
      s.threads[tid]? = some (.updateStore loc value oldValue) →
      writeAt s.object.array loc ⟨value, wrapInt (oldValue.stamp + 1)⟩ = .ok array →
      StepCase s (.run tid)
        { object := { s.object with array := array }
          threads := s.threads.set tid .idle
          history := .store tid loc ⟨value, wrapInt (oldValue.stamp + 1)⟩ :: s.history }
  | collect (s : System) (tid i : Nat) (ls : List TimestampValue) (m : Int)
      (loaded : TimestampValue) (ls' : List TimestampValue) (kept : TimestampValue) :
      s.threads[tid]? = some (.collect i ls m) →
      i < s.object.snap_size →
      readAt s.object.array (i : Int) = .ok loaded →
      writeAt ls (i : Int) loaded = .ok ls' →
      readAt ls' (i : Int) = .ok kept →
      StepCase s (.run tid)
        { s with threads := s.threads.set tid (.collect (i + 1) ls' (max m kept.stamp)) }
  | collectDone (s : System) (tid i : Nat) (ls : List TimestampValue) (m : Int) :
      s.threads[tid]? = some (.collect i ls m) →
      ¬ i < s.object.snap_size →
      StepCase s (.run tid) { s with threads := s.threads.set tid (.verify 0 ls m) }
  | restart (s : System) (tid i : Nat) (ls : List TimestampValue) (m : Int)
      (currentValue : TimestampValue) :
      s.threads[tid]? = some (.verify i ls m) →
      i < s.object.snap_size →
      readAt s.object.array (i : Int) = .ok currentValue →
      currentValue.stamp > m →
      StepCase s (.run tid)
        { s with
          threads := s.threads.set tid (.collect 0 (freshBuffer s.object.snap_size) (-1)) }
  | verify (s : System) (tid i : Nat) (ls : List TimestampValue) (m : Int)
      (currentValue : TimestampValue) :
      s.threads[tid]? = some (.verify i ls m) →
      i < s.object.snap_size →
      readAt s.object.array (i : Int) = .ok currentValue →
      ¬ currentValue.stamp > m →
      StepCase s (.run tid) { s with threads := s.threads.set tid (.verify (i + 1) ls m) }
  | ret (s : System) (tid i : Nat) (ls : List TimestampValue) (m : Int)
      (result : List Int) :
      s.threads[tid]? = some (.verify i ls m) →
      ¬ i < s.object.snap_size →
      taketheSanpshot s.object.snap_size ls = .ok result →
      StepCase s (.run tid)
        { s with
          threads := s.threads.set tid .idle
          history := .snapshotReturn tid result :: s.history }

/-- The update call a thread is in the middle of. -/
def Pc.pendingUpdate : Pc → Option (Int × Int)
  | .updateLoad loc value => some (loc, value)
  | .updateStore loc value _ => some (loc, value)
  | _ => none

/-- The local buffer of a thread inside `snapshot()`. -/
def Pc.buffer : Pc → Option (List TimestampValue)
  | .collect _ localSnapshot _ => some localSnapshot
  | .verify _ localSnapshot _ => some localSnapshot
  | _ => none

/-- A pair is accounted for at location `loc` when it is the initial pair `(0, 0)` or the
pair written by the store step of an `update(loc, value)` call recorded in the history. -/
def Accounted (history : List Event) (loc : Nat) (c : TimestampValue) : Prop :=
  c = ⟨0, 0⟩ ∨
  ∃ tid, Event.store tid (loc : Int) c ∈ history ∧
    Event.updateCall tid (loc : Int) c.value ∈ history

/-- The invariant behind the absence of fabricated values. -/
structure Inv (s : System) : Prop where
  cells : ∀ (i : Nat) (c : TimestampValue),
    s.object.array[i]? = some c → Accounted s.history i c
  pending : ∀ (tid : Nat) (pc : Pc) (loc v : Int), s.threads[tid]? = some pc →
    pc.pendingUpdate = some (loc, v) → Event.updateCall tid loc v ∈ s.history
  buffers : ∀ (tid : Nat) (pc : Pc) (ls : List TimestampValue), s.threads[tid]? = some pc →
    pc.buffer = some ls →
    ls.length = s.object.snap_size ∧
      ∀ (j : Nat) (c : TimestampValue), ls[j]? = some c → Accounted s.history j c
  returns : ∀ (post : List Event) (tid : Nat) (r : List Int) (pre : List Event),
    s.history = post ++ Event.snapshotReturn tid r :: pre →
    ∀ (i : Nat) (v : Int), r[i]? = some v →
      v = 0 ∨ ∃ t, Event.updateCall t (i : Int) v ∈ pre

/-- A step is uncontended when it is not a store, or it is the store of an update whose
cell still carries the stamp the update loaded (no other store to that location since the
load), that stamp being an `int` below the largest one. -/
def uncontended (s : System) : Action → Bool
  | .run tid =>
      match s.threads[tid]? with
      | some (.updateStore loc _ oldValue) =>
          match readAt s.object.array loc with
          | .ok current =>
              decide (current.stamp = oldValue.stamp) && decide (INT_MIN ≤ oldValue.stamp)
                && decide (oldValue.stamp < INT_MAX)
          | .error _ => false
      | _ => true
  | _ => true

/-- Whether every step of a schedule is uncontended in the state where it is taken. -/
def uncontendedRun (s : System) : List Action → Bool
  | [] => true
  | a :: rest =>
      uncontended s a &&
        match step s a with
        | .ok next => uncontendedRun next rest
        | .error _ => true

/-- The final state of `staleCollectSchedule` on two cells and two threads. -/
def staleCollectFinal : System :=
  { object := ⟨2, [⟨7, 1⟩, ⟨8, 1⟩]⟩
    threads := [.idle, .idle]
    history := [.snapshotReturn 0 [0, 8], .store 1 1 ⟨8, 1⟩, .updateCall 1 1 8,
      .store 1 0 ⟨7, 1⟩, .updateCall 1 0 7, .snapshotCall 0] }

/-- Two cells and four threads; reader 2 has called `snapshot()` and stands at the start
of its collect loop. -/
def disjointBefore : System :=
  { object := ⟨2, [⟨0, 0⟩, ⟨0, 0⟩]⟩
    threads := [.idle, .idle, .collect 0 [⟨0, 0⟩, ⟨0, 0⟩] (-1), .idle]
    history := [.snapshotCall 2] }

/-- The state after reader 2 has collected cell 0 from `disjointBefore`. -/
def disjointStart : System :=
  { object := ⟨2, [⟨0, 0⟩, ⟨0, 0⟩]⟩
    threads := [.idle, .idle, .collect 1 [⟨0, 0⟩, ⟨0, 0⟩] 0, .idle]
    history := [.snapshotCall 2] }

/-- Writer 0 runs `update(0, 5)` and writer 1 runs `update(1, 6)`, interleaved with each
other; then reader 3 calls `snapshot()`. -/
def disjointSchedule : List Action :=
  [.callUpdate 0 0 5, .callUpdate 1 1 6, .run 0, .run 1, .run 1, .run 0, .callSnapshot 3]

/-- The state `disjointSchedule` leads to from `disjointStart`. -/
def disjointFinal : System :=
  { object := ⟨2, [⟨5, 1⟩, ⟨6, 1⟩]⟩
    threads := [.idle, .idle, .collect 1 [⟨0, 0⟩, ⟨0, 0⟩] 0, .collect 0 [⟨0, 0⟩, ⟨0, 0⟩] (-1)]
    history := [.snapshotCall 3, .store 0 0 ⟨5, 1⟩, .store 1 1 ⟨6, 1⟩, .updateCall 1 1 6,
      .updateCall 0 0 5, .snapshotCall 2] }

/-- The state after reader 3 has collected cell 0 from `disjointFinal`. -/
def disjointAfter : System :=
  { object := ⟨2, [⟨5, 1⟩, ⟨6, 1⟩]⟩
    threads := [.idle, .idle, .collect 1 [⟨0, 0⟩, ⟨0, 0⟩] 0, .collect 1 [⟨5, 1⟩, ⟨0, 0⟩] 1]
    history := [.snapshotCall 3, .store 0 0 ⟨5, 1⟩, .store 1 1 ⟨6, 1⟩, .updateCall 1 1 6,
      .updateCall 0 0 5, .snapshotCall 2] }

/-- The schedule in which thread `tid` calls `snapshot()` on `n` cells and runs alone:
`n` collect steps, the exit of the collect loop, `n` verify steps, the return. -/
def soloSnapshot (tid n : Nat) : List Action :=
  .callSnapshot tid ::
    (List.replicate n (.run tid) ++ .run tid :: (List.replicate n (.run tid) ++ [.run tid]))

/-! ## Checked accesses -/

theorem ok_bind {α β : Type} (x : α) (f : α → Except Fault β) :
    (Except.ok x >>= f) = f x := rfl

theorem error_bind {α β : Type} (e : Fault) (f : α → Except Fault β) :
    ((Except.error e : Except Fault α) >>= f) = Except.error e := rfl

theorem pure_eq_ok {α : Type} (x : α) : (pure x : Except Fault α) = Except.ok x := rfl

theorem readAt_of_lt {α : Type} (xs : List α) (i : Nat) (h : i < xs.length) :
    readAt xs (i : Int) = .ok xs[i] := by
  simp [readAt, List.getElem?_eq_getElem h]

theorem readAt_of_getElem? {α : Type} (xs : List α) (i : Nat) (x : α)
    (h : xs[i]? = some x) : readAt xs (i : Int) = .ok x := by
  simp [readAt, h]

theorem writeAt_of_lt {α : Type} (xs : List α) (i : Nat) (x : α) (h : i < xs.length) :
    writeAt xs (i : Int) x = .ok (xs.set i x) := by
  simp [writeAt, h]

theorem readAt_ok {α : Type} {xs : List α} {i : Int} {x : α} (h : readAt xs i = .ok x) :
    0 ≤ i ∧ xs[i.toNat]? = some x := by
  unfold readAt at h
  split at h
  · rename_i h0
    split at h
    · rename_i y hy
      injection h with h
      exact ⟨h0, by rw [hy, h]⟩
    · cases h
  · cases h

theorem writeAt_ok {α : Type} {xs ys : List α} {i : Int} {x : α}
    (h : writeAt xs i x = .ok ys) :
    0 ≤ i ∧ i.toNat < xs.length ∧ ys = xs.set i.toNat x := by
  unfold writeAt at h
  split at h
  · rename_i h0
    injection h with h
    exact ⟨h0.1, h0.2, h.symm⟩
  · cases h

/-! ## The loops of the sequential layer -/

theorem constructLoop_spec (n : Nat) : ∀ (i : Nat) (array : List TimestampValue),
    i + n ≤ array.length →
    ∃ out, constructLoop n i array = .ok out ∧ out.length = array.length ∧
      ∀ j, out[j]? = if i ≤ j ∧ j < i + n then some ⟨0, 0⟩ else array[j]? := by
  induction n with
  | zero =>
    intro i array _
    refine ⟨array, rfl, rfl, ?_⟩
    intro j
    have : ¬ (i ≤ j ∧ j < i + 0) := by omega
    rw [if_neg this]
  | succ n ih =>
    intro i array h
    have hi : i < array.length := by omega
    obtain ⟨out, h1, h2, h3⟩ := ih (i + 1) (array.set i ⟨0, 0⟩) (by simp; omega)
    refine ⟨out, ?_, by simpa using h2, ?_⟩
    · simp only [constructLoop, writeAt_of_lt _ _ _ hi, ok_bind]
      exact h1
    · intro j
      rw [h3 j, List.getElem?_set]
      by_cases hj : i = j
      · subst hj
        have : ¬ (i + 1 ≤ i ∧ i < i + 1 + n) := by omega
        simp [this, hi]
      · by_cases hj2 : i + 1 ≤ j ∧ j < i + 1 + n
        · have : i ≤ j ∧ j < i + (n + 1) := by omega
          simp [hj2, this]
        · have : ¬ (i ≤ j ∧ j < i + (n + 1)) := by omega
          simp [hj2, this, hj]

theorem collectLoop_spec (cells : List TimestampValue) (n : Nat) :
    ∀ (i : Nat) (ls : List TimestampValue) (m : Int),
    i + n ≤ cells.length → i + n ≤ ls.length →
    ∃ out, collectLoop cells n i ls m
        = .ok (out, maxStampFrom m ((cells.drop i).take n)) ∧
      out.length = ls.length ∧
      ∀ j, out[j]? = if i ≤ j ∧ j < i + n then cells[j]? else ls[j]? := by
  induction n with
  | zero =>
    intro i ls m _ _
    refine ⟨ls, by simp [collectLoop, maxStampFrom], rfl, ?_⟩
    intro j
    have : ¬ (i ≤ j ∧ j < i + 0) := by omega
    rw [if_neg this]
  | succ n ih =>
    intro i ls m hc hl
    have hi : i < cells.length := by omega
    have hi2 : i < ls.length := by omega
    have hi3 : i < (ls.set i cells[i]).length := by simpa using hi2
    obtain ⟨out, h1, h2, h3⟩ :=
      ih (i + 1) (ls.set i cells[i]) (max m cells[i].stamp) (by omega) (by simp; omega)
    refine ⟨out, ?_, by simpa using h2, ?_⟩
    · simp only [collectLoop, readAt_of_lt _ _ hi, writeAt_of_lt _ _ _ hi2,
        readAt_of_lt _ _ hi3, ok_bind]
      rw [List.getElem_set_self, h1, List.drop_eq_getElem_cons hi]
      simp only [maxStampFrom, List.take_succ_cons, List.foldl_cons]
    · intro j
      rw [h3 j, List.getElem?_set]
      by_cases hj : i = j
      · subst hj
        have h4 : ¬ (i + 1 ≤ i ∧ i < i + 1 + n) := by omega
        have h5 : i ≤ i ∧ i < i + (n + 1) := by omega
        simp [h4, h5, hi2, List.getElem?_eq_getElem hi]
      · by_cases hj2 : i + 1 ≤ j ∧ j < i + 1 + n
        · have : i ≤ j ∧ j < i + (n + 1) := by omega
          simp [hj2, this]
        · have : ¬ (i ≤ j ∧ j < i + (n + 1)) := by omega
          simp [hj2, this, hj]

theorem verifyLoop_spec (cells : List TimestampValue) (m : Int) (n : Nat) :
    ∀ (i : Nat), i + n ≤ cells.length →
    verifyLoop cells n i m
      = .ok (((cells.drop i).take n).any (fun c => decide (c.stamp > m))) := by
  induction n with
  | zero =>
    intro i _
    simp [verifyLoop]
  | succ n ih =>
    intro i h
    have hi : i < cells.length := by omega
    simp only [verifyLoop, readAt_of_lt _ _ hi, ok_bind]
    rw [List.drop_eq_getElem_cons hi]
    simp only [List.take_succ_cons, List.any_cons]
    by_cases hs : cells[i].stamp > m
    · simp only [hs, if_true, pure_eq_ok, decide_True, Bool.true_or]
    · simp only [hs, if_false, ih (i + 1) (by omega), decide_False, Bool.false_or]

theorem extractLoop_spec (snap : List TimestampValue) (n : Nat) :
    ∀ (i : Nat) (result : List Int),
    i + n ≤ snap.length → i + n ≤ result.length →
    ∃ out, extractLoop snap n i result = .ok out ∧ out.length = result.length ∧
      ∀ j, out[j]? = if i ≤ j ∧ j < i + n then snap[j]?.map (fun c => c.value)
                     else result[j]? := by
  induction n with
  | zero =>
    intro i result _ _
    refine ⟨result, rfl, rfl, ?_⟩
    intro j
    have : ¬ (i ≤ j ∧ j < i + 0) := by omega
    rw [if_neg this]
  | succ n ih =>
    intro i result hc hl
    have hi : i < snap.length := by omega
    have hi2 : i < result.length := by omega
    obtain ⟨out, h1, h2, h3⟩ :=
      ih (i + 1) (result.set i snap[i].value) (by omega) (by simp; omega)
    refine ⟨out, ?_, by simpa using h2, ?_⟩
    · simp only [extractLoop, readAt_of_lt _ _ hi, writeAt_of_lt _ _ _ hi2, ok_bind]
      exact h1
    · intro j
      rw [h3 j, List.getElem?_set]
      by_cases hj : i = j
      · subst hj
        have h4 : ¬ (i + 1 ≤ i ∧ i < i + 1 + n) := by omega
        have h5 : i ≤ i ∧ i < i + (n + 1) := by omega
        simp [h4, h5, hi2, List.getElem?_eq_getElem hi]
      · by_cases hj2 : i + 1 ≤ j ∧ j < i + 1 + n
        · have : i ≤ j ∧ j < i + (n + 1) := by omega
          simp [hj2, this]
        · have : ¬ (i ≤ j ∧ j < i + (n + 1)) := by omega
          simp [hj2, this, hj]

/-! ## The methods of the sequential layer -/

theorem le_maxStampFrom (cells : List TimestampValue) :
    ∀ m : Int, m ≤ maxStampFrom m cells := by
  induction cells with
  | nil => intro m; exact le_refl m
  | cons c rest ih =>
    intro m
    exact le_trans (le_max_left m c.stamp) (ih (max m c.stamp))

theorem stamp_le_maxStampFrom (cells : List TimestampValue) :
    ∀ (m : Int) (c : TimestampValue), c ∈ cells → c.stamp ≤ maxStampFrom m cells := by
  induction cells with
  | nil => intro m c h; cases h
  | cons d rest ih =>
    intro m c h
    rcases List.mem_cons.mp h with h | h
    · subst h
      exact le_trans (le_max_right m c.stamp) (le_maxStampFrom rest (max m c.stamp))
    · exact ih (max m d.stamp) c h

theorem construct_eq (size : Nat) :
    MRMW_Snapshot.construct size
      = .ok { snap_size := size, array := List.replicate size ⟨0, 0⟩ } := by
  obtain ⟨out, h1, h2, h3⟩ :=
    constructLoop_spec size 0 (List.replicate size TimestampValue.zero) (by simp)
  have : out = List.replicate size ⟨0, 0⟩ := by
    apply List.ext_getElem?
    intro j
    rw [h3 j, List.getElem?_replicate, List.getElem?_replicate]
    by_cases hj : j < size
    · have : 0 ≤ j ∧ j < 0 + size := by omega
      simp [hj, this]
    · have : ¬ (0 ≤ j ∧ j < 0 + size) := by omega
      simp [hj, this]
  subst this
  simp only [MRMW_Snapshot.construct, h1, ok_bind, pure_eq_ok]

theorem update_eq (self : MRMW_Snapshot) (loc : Nat) (value : Int)
    (h : loc < self.array.length) :
    self.update (loc : Int) value
      = .ok { self with
          array := self.array.set loc ⟨value, wrapInt (self.array[loc].stamp + 1)⟩ } := by
  simp only [MRMW_Snapshot.update, readAt_of_lt _ _ h, writeAt_of_lt _ _ _ h, ok_bind,
    pure_eq_ok]

theorem taketheSanpshot_eq (snap : List TimestampValue) :
    taketheSanpshot snap.length snap = .ok (snap.map (fun c => c.value)) := by
  obtain ⟨out, h1, h2, h3⟩ :=
    extractLoop_spec snap snap.length 0 (List.replicate snap.length 0) (by simp) (by simp)
  have : out = snap.map (fun c => c.value) := by
    apply List.ext_getElem?
    intro j
    rw [h3 j, List.getElem?_map]
    by_cases hj : j < snap.length
    · have : 0 ≤ j ∧ j < 0 + snap.length := by omega
      rw [if_pos this]
    · have : ¬ (0 ≤ j ∧ j < 0 + snap.length) := by omega
      have hn : snap[j]? = none := List.getElem?_eq_none (by omega)
      rw [if_neg this, hn, List.getElem?_replicate, if_neg hj]
      rfl
  subst this
  exact h1

theorem attempt_eq (p1 p2 : List TimestampValue) (h : p2.length = p1.length) :
    attempt p1.length p1 p2
      = .ok (if p2.any (fun c => decide (c.stamp > maxStampFrom (-1) p1)) then none
             else some (p1.map (fun c => c.value))) := by
  obtain ⟨out, h1, h2, h3⟩ :=
    collectLoop_spec p1 p1.length 0 (List.replicate p1.length TimestampValue.zero) (-1)
      (by simp) (by simp)
  have hout : out = p1 := by
    apply List.ext_getElem?
    intro j
    rw [h3 j]
    by_cases hj : j < p1.length
    · have : 0 ≤ j ∧ j < 0 + p1.length := by omega
      rw [if_pos this]
    · have : ¬ (0 ≤ j ∧ j < 0 + p1.length) := by omega
      have hn : p1[j]? = none := List.getElem?_eq_none (by omega)
      rw [if_neg this, hn, List.getElem?_replicate, if_neg hj]
  subst hout
  have hv := verifyLoop_spec p2 (maxStampFrom (-1) out) p2.length 0 (by omega)
  simp only [List.drop_zero, List.take_length] at hv h1
  rw [h] at hv
  simp only [attempt, freshBuffer, h1, ok_bind, hv]
  cases hany : p2.any (fun c => decide (c.stamp > maxStampFrom (-1) out))
  · simp only [Bool.false_eq_true, if_false, taketheSanpshot_eq, ok_bind, pure_eq_ok]
  · simp only [if_true, pure_eq_ok]

theorem verify_quiet (cells : List TimestampValue) :
    cells.any (fun c => decide (c.stamp > maxStampFrom (-1) cells)) = false := by
  rw [List.any_eq_false]
  intro c hc
  have := stamp_le_maxStampFrom cells (-1) c hc
  simp only [gt_iff_lt, decide_eq_true_eq, not_lt]
  exact this

theorem snapshotRun_eq (self : MRMW_Snapshot) (fuel : Nat)
    (h : self.array.length = self.snap_size) :
    self.snapshotRun (fuel + 1) = .ok (self.array.map (fun c => c.value), 0, self) := by
  have ha := attempt_eq self.array self.array rfl
  rw [verify_quiet, h] at ha
  simp only [MRMW_Snapshot.snapshotRun, ha, ok_bind, Bool.false_eq_true, if_false,
    pure_eq_ok]

theorem snapshot_eq (self : MRMW_Snapshot) (fuel : Nat)
    (h : self.array.length = self.snap_size) :
    self.snapshot (fuel + 1) = .ok (self.array.map (fun c => c.value)) := by
  simp only [MRMW_Snapshot.snapshot, snapshotRun_eq self fuel h]
  rfl


/-! ## Sequences of updates -/

theorem lastWrite_of_absent (i : Nat) (ops : List (Int × Int)) :
    ∀ init : Int, (∀ v, ((i : Int), v) ∉ ops) → lastWrite init i ops = init := by
  induction ops with
  | nil => intro init _; rfl
  | cons op rest ih =>
    intro init h
    obtain ⟨loc, value⟩ := op
    have hne : loc ≠ (i : Int) := by
      intro he
      exact h value (by simp [he])
    simp only [lastWrite, if_neg hne]
    exact ih init (fun v hv => h v (List.mem_cons_of_mem _ hv))

theorem lastWrite_of_last (i : Nat) (ops : List (Int × Int)) :
    ∀ (init : Int) (j : Nat) (v : Int), ops[j]? = some ((i : Int), v) →
      (∀ k w, j < k → ops[k]? ≠ some ((i : Int), w)) → lastWrite init i ops = v := by
  induction ops with
  | nil => intro init j v h; simp at h
  | cons op rest ih =>
    intro init j v h hlast
    obtain ⟨loc, value⟩ := op
    cases j with
    | zero =>
      simp only [List.getElem?_cons_zero, Option.some.injEq, Prod.mk.injEq] at h
      obtain ⟨h1, h2⟩ := h
      subst h1 h2
      simp only [lastWrite, if_true]
      apply lastWrite_of_absent
      intro w hw
      obtain ⟨k, hk⟩ := List.getElem?_of_mem hw
      exact hlast (k + 1) w (by omega) (by simpa using hk)
    | succ j =>
      simp only [List.getElem?_cons_succ] at h
      simp only [lastWrite]
      apply ih _ j v h
      intro k w hk
      have := hlast (k + 1) w (by omega)
      simpa using this

theorem updates_spec (ops : List (Int × Int)) :
    ∀ (self : MRMW_Snapshot), (∀ op ∈ ops, 0 ≤ op.1 ∧ op.1 < (self.array.length : Int)) →
    ∃ after, self.updates ops = .ok after ∧ after.snap_size = self.snap_size ∧
      after.array.length = self.array.length ∧
      ∀ i, (after.array[i]?).map (fun c => c.value)
        = (self.array[i]?).map (fun c => lastWrite c.value i ops) := by
  induction ops with
  | nil =>
    intro self _
    exact ⟨self, rfl, rfl, rfl, fun i => by simp [lastWrite]⟩
  | cons op rest ih =>
    intro self h
    obtain ⟨loc, value⟩ := op
    have hloc := h (loc, value) (List.mem_cons_self _ _)
    obtain ⟨n, rfl⟩ := Int.eq_ofNat_of_zero_le hloc.1
    have hn : n < self.array.length := by
      have := hloc.2
      simp only at this
      omega
    obtain ⟨after, h1, h2, h3, h4⟩ :=
      ih { self with
            array := self.array.set n ⟨value, wrapInt (self.array[n].stamp + 1)⟩ }
        (by
          intro op hop
          have := h op (List.mem_cons_of_mem _ hop)
          simpa using this)
    refine ⟨after, ?_, h2, by simpa using h3, ?_⟩
    · simp only [MRMW_Snapshot.updates, update_eq self n value hn, ok_bind]
      exact h1
    · intro i
      rw [h4 i]
      simp only [List.getElem?_set, lastWrite]
      by_cases hi : n = i
      · subst hi
        simp [hn, List.getElem?_eq_getElem hn]
      · have hne : ¬ ((n : Int) = (i : Int)) := by omega
        simp only [if_neg hi, if_neg hne]

/-! ## Claims about the sequential layer -/

/-- C1. Single-writer correctness: for every `N` and every sequence of updates with
locations in `[0, N)`, applied one after another to a freshly constructed object, the
following `snapshot()` returns a vector `r` of length `N` in which `r[i]` is the value of
the last update to location `i`, and `0` when no update names `i`. -/
theorem single_writer_correctness (N : Nat) (ops : List (Int × Int)) (fuel : Nat)
    (h : ∀ op ∈ ops, 0 ≤ op.1 ∧ op.1 < (N : Int)) :
    ∃ r, (do
        let fresh ← MRMW_Snapshot.construct N
        let after ← fresh.updates ops
        after.snapshot (fuel + 1)) = .ok r ∧
      r.length = N ∧
      ∀ i : Nat, i < N →
        (∀ (j : Nat) (v : Int), ops[j]? = some ((i : Int), v) →
          (∀ (k : Nat) (w : Int), j < k → ops[k]? ≠ some ((i : Int), w)) → r[i]? = some v) ∧
        ((∀ v : Int, ((i : Int), v) ∉ ops) → r[i]? = some 0) := by
  obtain ⟨after, h1, h2, h3, h4⟩ :=
    updates_spec ops { snap_size := N, array := List.replicate N ⟨0, 0⟩ }
      (by simpa using h)
  simp only [List.length_replicate] at h3
  have hwf : after.array.length = after.snap_size := by rw [h3, h2]
  refine ⟨after.array.map (fun c => c.value), ?_, by simp [h3], ?_⟩
  · simp only [construct_eq, ok_bind, h1, snapshot_eq after fuel hwf]
  · intro i hi
    have hval : (after.array.map (fun c => c.value))[i]? = some (lastWrite 0 i ops) := by
      rw [List.getElem?_map, h4 i]
      simp [List.getElem?_replicate, hi]
    constructor
    · intro j v hj hlast
      rw [hval, lastWrite_of_last i ops 0 j v hj hlast]
    · intro hab
      rw [hval, lastWrite_of_absent i ops 0 hab]

/-- Witness of C1: `N = 3`, `update(1, 42)`, then `snapshot()` returns `[0, 42, 0]`. -/
theorem single_writer_correctness_witness :
    (∀ op ∈ [((1 : Int), (42 : Int))], 0 ≤ op.1 ∧ op.1 < ((3 : Nat) : Int)) ∧
    (do
        let fresh ← MRMW_Snapshot.construct 3
        let after ← fresh.updates [(1, 42)]
        after.snapshot 1) = .ok [0, 42, 0] ∧
    ∃ r, (do
        let fresh ← MRMW_Snapshot.construct 3
        let after ← fresh.updates [(1, 42)]
        after.snapshot (0 + 1)) = .ok r ∧
      r.length = 3 ∧
      ∀ i : Nat, i < 3 →
        (∀ (j : Nat) (v : Int), [((1 : Int), (42 : Int))][j]? = some ((i : Int), v) →
          (∀ (k : Nat) (w : Int), j < k →
            [((1 : Int), (42 : Int))][k]? ≠ some ((i : Int), w)) → r[i]? = some v) ∧
        ((∀ v : Int, ((i : Int), v) ∉ [((1 : Int), (42 : Int))]) → r[i]? = some 0) :=
  ⟨by decide, rfl, single_writer_correctness 3 [(1, 42)] 0 (by decide)⟩

/-- Counterexample to C2 as stated: on a cell whose stamp is the largest `int`, the
increment of `update` wraps, and the stored stamp is not `oldVersion + 1`. -/
theorem update_stamp_overflow :
    ∃ after, (⟨1, [⟨0, 2147483647⟩]⟩ : MRMW_Snapshot).update 0 5 = .ok after ∧
      after.array[0]? = some ⟨5, -2147483648⟩ ∧
      after.array[0]? ≠ some ⟨5, 2147483647 + 1⟩ :=
  ⟨⟨1, [⟨5, -2147483648⟩]⟩, by rfl, by rfl, by decide⟩

theorem wrapInt_succ (x : Int) (h1 : INT_MIN ≤ x) (h2 : x < INT_MAX) :
    wrapInt (x + 1) = x + 1 := by
  unfold INT_MIN at h1
  unfold INT_MAX at h2
  unfold wrapInt
  omega

/-- C2, amended. Effect and frame of `update`: for every array state of length `N`, every
`loc` in `[0, N)` and every `v`, when the stamp of cell `loc` is an `int` below the largest
one, `update(loc, v)` yields a state in which cell `loc` is `(v, oldVersion + 1)`, every
other cell is as before, and the length of the array and `snap_size` are unchanged. -/
theorem update_effect_and_frame (self : MRMW_Snapshot) (loc v : Int) (old : TimestampValue)
    (h0 : 0 ≤ loc) (h1 : loc < (self.array.length : Int))
    (hold : self.array[loc.toNat]? = some old)
    (hmin : INT_MIN ≤ old.stamp) (hmax : old.stamp < INT_MAX) :
    ∃ after, self.update loc v = .ok after ∧
      after.array[loc.toNat]? = some ⟨v, old.stamp + 1⟩ ∧
      (∀ i : Nat, i ≠ loc.toNat → after.array[i]? = self.array[i]?) ∧
      after.array.length = self.array.length ∧
      after.snap_size = self.snap_size := by
  obtain ⟨n, rfl⟩ := Int.eq_ofNat_of_zero_le h0
  have hn : n < self.array.length := by omega
  simp only [Int.toNat_ofNat] at hold ⊢
  have hget : self.array[n] = old := by
    rw [List.getElem?_eq_getElem hn] at hold
    exact Option.some.inj hold
  refine ⟨_, update_eq self n v hn, ?_, ?_, by simp, rfl⟩
  · simp only [List.getElem?_set, if_true, hn, hget, wrapInt_succ old.stamp hmin hmax]
  · intro i hi
    simp only [List.getElem?_set, if_neg (Ne.symm hi)]

/-- Witness of the amended C2: `update(1, 42)` on a fresh array of three cells. -/
theorem update_effect_and_frame_witness :
    ∃ after, (⟨3, [⟨0, 0⟩, ⟨0, 0⟩, ⟨0, 0⟩]⟩ : MRMW_Snapshot).update 1 42 = .ok after ∧
      after.array[(1 : Int).toNat]? = some ⟨42, (0 : Int) + 1⟩ ∧
      (∀ i : Nat, i ≠ (1 : Int).toNat →
        after.array[i]? = (⟨3, [⟨0, 0⟩, ⟨0, 0⟩, ⟨0, 0⟩]⟩ : MRMW_Snapshot).array[i]?) ∧
      after.array.length = (⟨3, [⟨0, 0⟩, ⟨0, 0⟩, ⟨0, 0⟩]⟩ : MRMW_Snapshot).array.length ∧
      after.snap_size = (⟨3, [⟨0, 0⟩, ⟨0, 0⟩, ⟨0, 0⟩]⟩ : MRMW_Snapshot).snap_size :=
  update_effect_and_frame ⟨3, [⟨0, 0⟩, ⟨0, 0⟩, ⟨0, 0⟩]⟩ 1 42 ⟨0, 0⟩
    (by decide) (by decide) rfl (by decide) (by decide)

/-- C6. Idempotence of reads: for every array state, two `snapshot()` calls executed one
immediately after the other, with no update between or during them, return the same
vector. -/
theorem snapshot_twice_same (self : MRMW_Snapshot) (fuel1 fuel2 : Nat)
    (h : self.array.length = self.snap_size) :
    ∃ r1 r2 calls1 calls2 mid final,
      self.snapshotRun (fuel1 + 1) = .ok (r1, calls1, mid) ∧
      mid.snapshotRun (fuel2 + 1) = .ok (r2, calls2, final) ∧
      r1 = r2 :=
  ⟨_, _, 0, 0, self, self, snapshotRun_eq self fuel1 h, snapshotRun_eq self fuel2 h, rfl⟩

/-- Witness of C6 on the array `[(7, 3), (9, 1)]`. -/
theorem snapshot_twice_same_witness :
    ∃ r1 r2 calls1 calls2 mid final,
      (⟨2, [⟨7, 3⟩, ⟨9, 1⟩]⟩ : MRMW_Snapshot).snapshotRun (0 + 1) = .ok (r1, calls1, mid) ∧
      mid.snapshotRun (0 + 1) = .ok (r2, calls2, final) ∧
      r1 = r2 :=
  snapshot_twice_same ⟨2, [⟨7, 3⟩, ⟨9, 1⟩]⟩ 0 0 rfl

theorem undisturbed_passes (self : MRMW_Snapshot)
    (h : self.array.length = self.snap_size) :
    collectLoop self.array self.snap_size 0 (freshBuffer self.snap_size) (-1)
      = .ok (self.array, maxStampFrom (-1) self.array) ∧
    verifyLoop self.array self.snap_size 0 (maxStampFrom (-1) self.array) = .ok false ∧
    taketheSanpshot self.snap_size self.array
      = .ok (self.array.map (fun c => c.value)) := by
  obtain ⟨out, h1, h2, h3⟩ :=
    collectLoop_spec self.array self.array.length 0
      (List.replicate self.array.length TimestampValue.zero) (-1) (by simp) (by simp)
  have hout : out = self.array := by
    apply List.ext_getElem?
    intro j
    rw [h3 j]
    by_cases hj : j < self.array.length
    · have : 0 ≤ j ∧ j < 0 + self.array.length := by omega
      rw [if_pos this]
    · have : ¬ (0 ≤ j ∧ j < 0 + self.array.length) := by omega
      have hn : self.array[j]? = none := List.getElem?_eq_none (by omega)
      rw [if_neg this, hn, List.getElem?_replicate, if_neg hj]
  rw [hout] at h1
  simp only [List.drop_zero, List.take_length] at h1
  have hv := verifyLoop_spec self.array (maxStampFrom (-1) self.array)
    self.array.length 0 (by omega)
  simp only [List.drop_zero, List.take_length, verify_quiet] at hv
  rw [h] at h1 hv
  refine ⟨h1, hv, ?_⟩
  rw [← h]
  exact taketheSanpshot_eq self.array

/-! ## Steps of a thread inside `snapshot()` -/

theorem bind_ok {α β : Type} {x : Except Fault α} {f : α → Except Fault β} {b : β}
    (h : (x >>= f) = .ok b) : ∃ a, x = .ok a ∧ f a = .ok b := by
  cases x with
  | error e => cases h
  | ok a => exact ⟨a, rfl, h⟩

theorem runThread_inSnapshot_object (s s' : System) (tid : Nat) (pc : Pc)
    (hpc : pc.inSnapshot = true) (h : runThread s tid pc = .ok s') :
    s'.object = s.object := by
  cases pc with
  | idle => cases hpc
  | updateLoad loc value => cases hpc
  | updateStore loc value old => cases hpc
  | collect i ls m =>
    simp only [runThread] at h
    split at h
    · obtain ⟨a, _, h⟩ := bind_ok h
      obtain ⟨b, _, h⟩ := bind_ok h
      obtain ⟨c, _, h⟩ := bind_ok h
      cases h
      rfl
    · cases h
      rfl
  | verify i ls m =>
    simp only [runThread] at h
    split at h
    · obtain ⟨a, _, h⟩ := bind_ok h
      split at h
      · cases h
        rfl
      · cases h
        rfl
    · obtain ⟨a, _, h⟩ := bind_ok h
      cases h
      rfl

/-- C7. `snapshot()` is read-only and returns `N` entries: a call that runs on an array
of length `N` returns a vector of length `N` whose entry `i` is the value field of cell
`i`, and leaves the object as it was; in the interleaving layer, neither the call of
`snapshot()` nor any step of a thread inside it changes a cell or the length of the
array. -/
theorem snapshot_read_only (self : MRMW_Snapshot) (fuel : Nat)
    (h : self.array.length = self.snap_size) :
    (∃ r calls final, self.snapshotRun (fuel + 1) = .ok (r, calls, final) ∧
      final = self ∧ r.length = self.snap_size ∧
      ∀ i : Nat, i < self.snap_size → r[i]? = (self.array[i]?).map (fun c => c.value)) ∧
    (∀ (s s' : System) (tid : Nat) (pc : Pc), s.object = self →
      s.threads[tid]? = some pc → pc.inSnapshot = true →
      step s (.run tid) = .ok s' → s'.object = self) ∧
    (∀ (s s' : System) (tid : Nat), s.object = self →
      step s (.callSnapshot tid) = .ok s' → s'.object = self) := by
  refine ⟨⟨_, 0, self, snapshotRun_eq self fuel h, rfl, by simp [h], ?_⟩, ?_, ?_⟩
  · intro i _
    rw [List.getElem?_map]
  · intro s s' tid pc hs hpc hin hstep
    simp only [step, hpc] at hstep
    rw [runThread_inSnapshot_object s s' tid pc hin hstep, hs]
  · intro s s' tid hs hstep
    simp only [step] at hstep
    split at hstep
    · cases hstep
      exact hs
    · cases hstep

/-- Witness of C7 on the array `[(7, 3), (9, 1)]`. -/
theorem snapshot_read_only_witness :
    (∃ r calls final,
      (⟨2, [⟨7, 3⟩, ⟨9, 1⟩]⟩ : MRMW_Snapshot).snapshotRun (0 + 1) = .ok (r, calls, final) ∧
      final = ⟨2, [⟨7, 3⟩, ⟨9, 1⟩]⟩ ∧
      r.length = (⟨2, [⟨7, 3⟩, ⟨9, 1⟩]⟩ : MRMW_Snapshot).snap_size ∧
      ∀ i : Nat, i < (⟨2, [⟨7, 3⟩, ⟨9, 1⟩]⟩ : MRMW_Snapshot).snap_size →
        r[i]? = ((⟨2, [⟨7, 3⟩, ⟨9, 1⟩]⟩ : MRMW_Snapshot).array[i]?).map
          (fun c => c.value)) ∧
    (∀ (s s' : System) (tid : Nat) (pc : Pc), s.object = ⟨2, [⟨7, 3⟩, ⟨9, 1⟩]⟩ →
      s.threads[tid]? = some pc → pc.inSnapshot = true →
      step s (.run tid) = .ok s' → s'.object = ⟨2, [⟨7, 3⟩, ⟨9, 1⟩]⟩) ∧
    (∀ (s s' : System) (tid : Nat), s.object = ⟨2, [⟨7, 3⟩, ⟨9, 1⟩]⟩ →
      step s (.callSnapshot tid) = .ok s' → s'.object = ⟨2, [⟨7, 3⟩, ⟨9, 1⟩]⟩) :=
  snapshot_read_only ⟨2, [⟨7, 3⟩, ⟨9, 1⟩]⟩ 0 rfl

/-- C8. In-range operations have no error condition: on an array of length `N`, for
every `loc` in `[0, N)` the load and the store of `update(loc, v)` index inside the array
and `update` completes; and for every `N`, `snapshot()` completes without a fault, that
is, every checked access of its loops and of `taketheSanpshot` is in bounds. -/
theorem in_range_no_fault (self : MRMW_Snapshot) (fuel : Nat)
    (h : self.array.length = self.snap_size) :
    (∀ loc v : Int, 0 ≤ loc → loc < (self.snap_size : Int) →
      ∃ old stored after, readAt self.array loc = .ok old ∧
        writeAt self.array loc ⟨v, wrapInt (old.stamp + 1)⟩ = .ok stored ∧
        self.update loc v = .ok after) ∧
    (∃ ls m r, collectLoop self.array self.snap_size 0 (freshBuffer self.snap_size) (-1)
        = .ok (ls, m) ∧
      verifyLoop self.array self.snap_size 0 m = .ok false ∧
      taketheSanpshot self.snap_size ls = .ok r ∧
      self.snapshot (fuel + 1) = .ok r) := by
  constructor
  · intro loc v h0 h1
    obtain ⟨n, rfl⟩ := Int.eq_ofNat_of_zero_le h0
    have hn : n < self.array.length := by omega
    refine ⟨_, _, _, readAt_of_lt _ _ hn, writeAt_of_lt _ _ _ hn, update_eq self n v hn⟩
  · obtain ⟨h1, h2, h3⟩ := undisturbed_passes self h
    exact ⟨_, _, _, h1, h2, h3, snapshot_eq self fuel h⟩

/-- Witness of C8 on the array `[(7, 3), (9, 1)]`. -/
theorem in_range_no_fault_witness :
    (∀ loc v : Int, 0 ≤ loc →
      loc < ((⟨2, [⟨7, 3⟩, ⟨9, 1⟩]⟩ : MRMW_Snapshot).snap_size : Int) →
      ∃ old stored after,
        readAt (⟨2, [⟨7, 3⟩, ⟨9, 1⟩]⟩ : MRMW_Snapshot).array loc = .ok old ∧
        writeAt (⟨2, [⟨7, 3⟩, ⟨9, 1⟩]⟩ : MRMW_Snapshot).array loc
          ⟨v, wrapInt (old.stamp + 1)⟩ = .ok stored ∧
        (⟨2, [⟨7, 3⟩, ⟨9, 1⟩]⟩ : MRMW_Snapshot).update loc v = .ok after) ∧
    (∃ ls m r,
      collectLoop (⟨2, [⟨7, 3⟩, ⟨9, 1⟩]⟩ : MRMW_Snapshot).array
        (⟨2, [⟨7, 3⟩, ⟨9, 1⟩]⟩ : MRMW_Snapshot).snap_size 0
        (freshBuffer (⟨2, [⟨7, 3⟩, ⟨9, 1⟩]⟩ : MRMW_Snapshot).snap_size) (-1)
        = .ok (ls, m) ∧
      verifyLoop (⟨2, [⟨7, 3⟩, ⟨9, 1⟩]⟩ : MRMW_Snapshot).array
        (⟨2, [⟨7, 3⟩, ⟨9, 1⟩]⟩ : MRMW_Snapshot).snap_size 0 m = .ok false ∧
      taketheSanpshot (⟨2, [⟨7, 3⟩, ⟨9, 1⟩]⟩ : MRMW_Snapshot).snap_size ls = .ok r ∧
      (⟨2, [⟨7, 3⟩, ⟨9, 1⟩]⟩ : MRMW_Snapshot).snapshot (0 + 1) = .ok r) :=
  in_range_no_fault ⟨2, [⟨7, 3⟩, ⟨9, 1⟩]⟩ 0 rfl

/-! ## The decision of one attempt -/

theorem maxStampFrom_max (cells : List TimestampValue) :
    ∀ a b : Int, maxStampFrom (max a b) cells = max a (maxStampFrom b cells) := by
  induction cells with
  | nil => intro a b; rfl
  | cons c rest ih =>
    intro a b
    simp only [maxStampFrom, List.foldl_cons] at ih ⊢
    rw [max_assoc]
    exact ih a (max b c.stamp)

theorem maxStampFrom_eq_flooredMaxVersion (p1 : List TimestampValue) :
    maxStampFrom (-1) p1 = flooredMaxVersion p1 := by
  cases p1 with
  | nil => rfl
  | cons c rest =>
    have h := maxStampFrom_max rest (-1) c.stamp
    simp only [maxStampFrom] at h
    simp only [maxStampFrom, flooredMaxVersion, specMaxVersion, List.foldl_cons]
    exact h

theorem stamp_le_specMaxVersion (p1 : List TimestampValue) :
    ∀ c ∈ p1, c.stamp ≤ specMaxVersion p1 := by
  cases p1 with
  | nil => intro c hc; cases hc
  | cons d rest =>
    intro c hc
    rcases List.mem_cons.mp hc with h | h
    · subst h
      exact le_maxStampFrom rest c.stamp
    · exact stamp_le_maxStampFrom rest d.stamp c h

theorem foldl_max_attained (rest : List TimestampValue) :
    ∀ (d : TimestampValue) (m : Int), (m = d.stamp) →
      ∃ c ∈ d :: rest, c.stamp = maxStampFrom m rest := by
  induction rest with
  | nil =>
    intro d m hm
    exact ⟨d, List.mem_cons_self _ _, hm.symm⟩
  | cons e rest ih =>
    intro d m hm
    simp only [maxStampFrom, List.foldl_cons]
    by_cases hle : m ≤ e.stamp
    · rw [max_eq_right hle]
      obtain ⟨c, hc, heq⟩ := ih e e.stamp rfl
      exact ⟨c, List.mem_cons_of_mem _ hc, heq⟩
    · rw [max_eq_left (by omega)]
      obtain ⟨c, hc, heq⟩ := ih d m hm
      refine ⟨c, ?_, heq⟩
      rcases List.mem_cons.mp hc with h | h
      · rw [h]
        exact List.mem_cons_self _ _
      · exact List.mem_cons_of_mem _ (List.mem_cons_of_mem _ h)

theorem specMax_attained (rest : List TimestampValue) (d : TimestampValue) :
    ∃ c ∈ d :: rest, c.stamp = specMaxVersion (d :: rest) :=
  foldl_max_attained rest d d.stamp rfl

/-- Counterexample to C9 as stated: the collect pass read one cell of version `-5`, the
verify pass read version `-4`, which is greater than the maximum version in `p1`, and yet
the attempt does not restart: it returns the value of `p1`, because `maxStamp` starts at
`-1`. -/
theorem attempt_accepts_above_maximum :
    attempt 1 [⟨1, -5⟩] [⟨2, -4⟩] = .ok (some [1]) ∧
    specMaxVersion [⟨1, -5⟩] = -5 ∧
    (∃ c ∈ [(⟨2, -4⟩ : TimestampValue)], c.stamp > specMaxVersion [⟨1, -5⟩]) ∧
    attempt 1 [⟨1, -5⟩] [⟨2, -4⟩] ≠ .ok none := by
  refine ⟨by rfl, by rfl, ⟨⟨2, -4⟩, by simp, by decide⟩, ?_⟩
  intro h
  have h2 : attempt 1 [⟨1, -5⟩] [⟨2, -4⟩] = .ok (some [1]) := by rfl
  rw [h2] at h
  cases h

/-- C9, amended. Collect/verify decision of one attempt: with `p1` the `N` cells read in
the collect pass and `p2` the `N` cells read in the verify pass, and `maxVersion` the
greater of `-1` and the maximum version in `p1` (`-1` when `N = 0`), the attempt restarts
exactly when some cell of `p2` has a version greater than `maxVersion`, and otherwise it
returns the value fields of `p1` in location order. -/
theorem attempt_decision (p1 p2 : List TimestampValue) (hlen : p2.length = p1.length) :
    ((∃ c ∈ p2, c.stamp > flooredMaxVersion p1) → attempt p1.length p1 p2 = .ok none) ∧
    ((∀ c ∈ p2, c.stamp ≤ flooredMaxVersion p1) →
      attempt p1.length p1 p2 = .ok (some (p1.map (fun c => c.value)))) ∧
    (attempt p1.length p1 p2 = .ok none → ∃ c ∈ p2, c.stamp > flooredMaxVersion p1) ∧
    (∀ c ∈ p1, c.stamp ≤ specMaxVersion p1) ∧
    (p1 ≠ [] → ∃ c ∈ p1, c.stamp = specMaxVersion p1) ∧
    (p1 = [] → flooredMaxVersion p1 = -1) ∧
    ((∀ c ∈ p1, 0 ≤ c.stamp) → flooredMaxVersion p1 = specMaxVersion p1) := by
  have ha := attempt_eq p1 p2 hlen
  rw [maxStampFrom_eq_flooredMaxVersion p1] at ha
  refine ⟨?_, ?_, ?_, stamp_le_specMaxVersion p1, ?_, ?_, ?_⟩
  · intro ⟨c, hc, hgt⟩
    have hany : p2.any (fun c => decide (c.stamp > flooredMaxVersion p1)) = true :=
      List.any_eq_true.mpr ⟨c, hc, by simpa using hgt⟩
    rw [ha, hany]
    rfl
  · intro hall
    have hany : p2.any (fun c => decide (c.stamp > flooredMaxVersion p1)) = false := by
      rw [List.any_eq_false]
      intro c hc
      have := hall c hc
      simp only [gt_iff_lt, decide_eq_true_eq, not_lt]
      exact this
    rw [ha, hany]
    rfl
  · intro hnone
    rw [ha] at hnone
    cases hany : p2.any (fun c => decide (c.stamp > flooredMaxVersion p1)) with
    | false =>
      rw [hany] at hnone
      simp at hnone
    | true =>
      obtain ⟨c, hc, hgt⟩ := List.any_eq_true.mp hany
      exact ⟨c, hc, by simpa using hgt⟩
  · intro hne
    cases p1 with
    | nil => exact absurd rfl hne
    | cons d rest => exact specMax_attained rest d
  · intro hnil
    subst hnil
    rfl
  · intro hver
    cases p1 with
    | nil => rfl
    | cons d rest =>
      have h0 : 0 ≤ d.stamp := hver d (List.mem_cons_self _ _)
      have h1 : d.stamp ≤ specMaxVersion (d :: rest) :=
        stamp_le_specMaxVersion (d :: rest) d (List.mem_cons_self _ _)
      exact max_eq_right (by omega)

/-- Witness of the amended C9 on the cells of the counterexample: the collect pass read
version `-5`, so `maxVersion` is `-1`; the verify pass read version `-4`, which is not
greater, and the attempt returns `[1]`. -/
theorem attempt_decision_witness :
    attempt 1 [⟨1, -5⟩] [⟨2, -4⟩] = .ok (some [1]) ∧
    flooredMaxVersion [⟨1, -5⟩] = -1 :=
  ⟨(attempt_decision [⟨1, -5⟩] [⟨2, -4⟩] rfl).2.1 (by decide), by decide⟩

theorem exec_append (xs : List Action) :
    ∀ (s : System) (ys : List Action),
      exec s (xs ++ ys) = (exec s xs >>= fun mid => exec mid ys) := by
  induction xs with
  | nil => intro s ys; rfl
  | cons a rest ih =>
    intro s ys
    simp only [List.cons_append, exec]
    cases step s a with
    | error e => rfl
    | ok next => exact ih next ys

theorem set_same {α : Type} (xs : List α) (t : Nat) (x : α) (h : xs[t]? = some x) :
    xs.set t x = xs := by
  apply List.ext_getElem?
  intro j
  rw [List.getElem?_set]
  by_cases hj : t = j
  · subst hj
    rw [if_pos rfl, h]
    split
    · rfl
    · rename_i hlt
      rw [List.getElem?_eq_none (by omega)] at h
      cases h
  · rw [if_neg hj]

theorem thread_lt {s : System} {t : Nat} {pc : Pc} (h : s.threads[t]? = some pc) :
    t < s.threads.length := by
  by_contra hge
  rw [List.getElem?_eq_none (by omega)] at h
  cases h

theorem solo_collect (t : Nat) (k : Nat) :
    ∀ (s : System) (i : Nat) (ls : List TimestampValue) (m : Int)
      (ls' : List TimestampValue) (m' : Int),
      s.threads[t]? = some (.collect i ls m) → i + k ≤ s.object.snap_size →
      collectLoop s.object.array k i ls m = .ok (ls', m') →
      exec s (List.replicate k (.run t))
        = .ok { s with threads := s.threads.set t (.collect (i + k) ls' m') } := by
  induction k with
  | zero =>
    intro s i ls m ls' m' hpc _ hloop
    simp only [collectLoop, Except.ok.injEq, Prod.mk.injEq] at hloop
    obtain ⟨rfl, rfl⟩ := hloop
    simp only [List.replicate, exec, Nat.add_zero]
    congr 1
    rw [set_same _ _ _ hpc]
  | succ k ih =>
    intro s i ls m ls' m' hpc hi hloop
    simp only [collectLoop] at hloop
    obtain ⟨loaded, h1, hloop⟩ := bind_ok hloop
    obtain ⟨ls1, h2, hloop⟩ := bind_ok hloop
    obtain ⟨kept, h3, hloop⟩ := bind_ok hloop
    have hlt : i < s.object.snap_size := by omega
    have ht := thread_lt hpc
    have hstep : step s (.run t)
        = .ok { s with threads := s.threads.set t (.collect (i + 1) ls1 (max m kept.stamp)) } := by
      simp only [step, hpc, runThread, hlt, if_true, h1, h2, h3, ok_bind, pure_eq_ok]
    simp only [List.replicate, exec, hstep, ok_bind]
    rw [ih { s with threads := s.threads.set t (.collect (i + 1) ls1 (max m kept.stamp)) }
      (i + 1) ls1 (max m kept.stamp) ls' m' (by simp [ht]) (by simp; omega) hloop]
    simp only [List.set_set, Nat.add_assoc, Nat.add_comm 1 k]

theorem solo_verify (t : Nat) (k : Nat) :
    ∀ (s : System) (i : Nat) (ls : List TimestampValue) (m : Int),
      s.threads[t]? = some (.verify i ls m) → i + k ≤ s.object.snap_size →
      verifyLoop s.object.array k i m = .ok false →
      exec s (List.replicate k (.run t))
        = .ok { s with threads := s.threads.set t (.verify (i + k) ls m) } := by
  induction k with
  | zero =>
    intro s i ls m hpc _ _
    simp only [List.replicate, exec, Nat.add_zero]
    congr 1
    rw [set_same _ _ _ hpc]
  | succ k ih =>
    intro s i ls m hpc hi hloop
    simp only [verifyLoop] at hloop
    obtain ⟨cur, h1, hloop⟩ := bind_ok hloop
    have hlt : i < s.object.snap_size := by omega
    have ht := thread_lt hpc
    by_cases hgt : cur.stamp > m
    · simp only [hgt, if_true, pure_eq_ok, Except.ok.injEq] at hloop
      cases hloop
    · simp only [hgt, if_false] at hloop
      have hstep : step s (.run t)
          = .ok { s with threads := s.threads.set t (.verify (i + 1) ls m) } := by
        simp only [step, hpc, runThread, hlt, if_true, h1, ok_bind, hgt, if_false, pure_eq_ok]
      simp only [List.replicate, exec, hstep, ok_bind]
      rw [ih { s with threads := s.threads.set t (.verify (i + 1) ls m) }
        (i + 1) ls m (by simp [ht]) (by simp; omega) hloop]
      simp only [List.set_set, Nat.add_assoc, Nat.add_comm 1 k]

theorem solo_snapshot (s : System) (t : Nat) (hidle : s.threads[t]? = some .idle)
    (h : s.object.array.length = s.object.snap_size) :
    exec s (soloSnapshot t s.object.snap_size)
      = .ok { s with
          history := .snapshotReturn t (s.object.array.map (fun c => c.value))
            :: .snapshotCall t :: s.history } := by
  obtain ⟨h1, h2, h3⟩ := undisturbed_passes s.object h
  have ht := thread_lt hidle
  have hc := solo_collect t s.object.snap_size
    { s with
      threads := s.threads.set t (.collect 0 (freshBuffer s.object.snap_size) (-1))
      history := .snapshotCall t :: s.history }
    0 _ (-1) _ _ (by simp [ht]) (by simp) h1
  have hv := solo_verify t s.object.snap_size
    { s with
      threads := s.threads.set t (.verify 0 s.object.array (maxStampFrom (-1) s.object.array))
      history := .snapshotCall t :: s.history }
    0 s.object.array (maxStampFrom (-1) s.object.array) (by simp [ht]) (by simp) h2
  simp only [List.set_set, Nat.zero_add] at hc hv
  simp only [soloSnapshot, exec, step, hidle, ok_bind]
  rw [exec_append, hc]
  simp only [ok_bind, exec, step, List.getElem?_set, if_true, ht, runThread,
    lt_irrefl, if_false, pure_eq_ok, List.set_set]
  rw [exec_append, hv]
  simp only [ok_bind, exec, step, List.getElem?_set, if_true, ht, runThread,
    lt_irrefl, if_false, pure_eq_ok, List.set_set, h3]
  congr 1
  rw [set_same _ _ _ hidle]

/-- C10. `snapshot()` terminates without retry when undisturbed: for every array state
of any length `N`, when no update occurs during the call, the collect pass ends with
`maxStamp` at least every stamp in the array (`-1` when `N = 0`), the verify pass finds no
greater stamp, and `snapshot()` returns with no recursive call; in the interleaving layer
a thread that runs alone returns after `N` collect steps, the exit of the collect loop,
`N` verify steps and the return step. -/
theorem snapshot_no_retry (self : MRMW_Snapshot) (fuel : Nat)
    (h : self.array.length = self.snap_size) :
    ∃ ls m r, collectLoop self.array self.snap_size 0 (freshBuffer self.snap_size) (-1)
        = .ok (ls, m) ∧
      (self.snap_size = 0 → m = -1) ∧
      (∀ c ∈ self.array, c.stamp ≤ m) ∧
      verifyLoop self.array self.snap_size 0 m = .ok false ∧
      attempt self.snap_size self.array self.array = .ok (some r) ∧
      self.snapshotRun (fuel + 1) = .ok (r, 0, self) ∧
      ∀ (s : System) (t : Nat), s.object = self → s.threads[t]? = some .idle →
        exec s (soloSnapshot t self.snap_size)
          = .ok { s with history := .snapshotReturn t r :: .snapshotCall t :: s.history } := by
  obtain ⟨h1, h2, _⟩ := undisturbed_passes self h
  have ha := attempt_eq self.array self.array rfl
  rw [verify_quiet, h] at ha
  refine ⟨_, _, _, h1, ?_, ?_, h2, ha, snapshotRun_eq self fuel h, ?_⟩
  · intro h0
    have : self.array = [] := List.eq_nil_of_length_eq_zero (by omega)
    rw [this]
    rfl
  · intro c hc
    exact stamp_le_maxStampFrom self.array (-1) c hc
  · intro s t hs hidle
    subst hs
    exact solo_snapshot s t hidle h

/-- Witness of C10 on the array `[(7, 3), (9, 1)]`. -/
theorem snapshot_no_retry_witness :
    ∃ ls m r,
      collectLoop (⟨2, [⟨7, 3⟩, ⟨9, 1⟩]⟩ : MRMW_Snapshot).array
        (⟨2, [⟨7, 3⟩, ⟨9, 1⟩]⟩ : MRMW_Snapshot).snap_size 0
        (freshBuffer (⟨2, [⟨7, 3⟩, ⟨9, 1⟩]⟩ : MRMW_Snapshot).snap_size) (-1)
        = .ok (ls, m) ∧
      ((⟨2, [⟨7, 3⟩, ⟨9, 1⟩]⟩ : MRMW_Snapshot).snap_size = 0 → m = -1) ∧
      (∀ c ∈ (⟨2, [⟨7, 3⟩, ⟨9, 1⟩]⟩ : MRMW_Snapshot).array, c.stamp ≤ m) ∧
      verifyLoop (⟨2, [⟨7, 3⟩, ⟨9, 1⟩]⟩ : MRMW_Snapshot).array
        (⟨2, [⟨7, 3⟩, ⟨9, 1⟩]⟩ : MRMW_Snapshot).snap_size 0 m = .ok false ∧
      attempt (⟨2, [⟨7, 3⟩, ⟨9, 1⟩]⟩ : MRMW_Snapshot).snap_size
        (⟨2, [⟨7, 3⟩, ⟨9, 1⟩]⟩ : MRMW_Snapshot).array
        (⟨2, [⟨7, 3⟩, ⟨9, 1⟩]⟩ : MRMW_Snapshot).array = .ok (some r) ∧
      (⟨2, [⟨7, 3⟩, ⟨9, 1⟩]⟩ : MRMW_Snapshot).snapshotRun (0 + 1)
        = .ok (r, 0, ⟨2, [⟨7, 3⟩, ⟨9, 1⟩]⟩) ∧
      ∀ (s : System) (t : Nat), s.object = ⟨2, [⟨7, 3⟩, ⟨9, 1⟩]⟩ →
        s.threads[t]? = some .idle →
        exec s (soloSnapshot t (⟨2, [⟨7, 3⟩, ⟨9, 1⟩]⟩ : MRMW_Snapshot).snap_size)
          = .ok { s with history := .snapshotReturn t r :: .snapshotCall t :: s.history } :=
  snapshot_no_retry ⟨2, [⟨7, 3⟩, ⟨9, 1⟩]⟩ 0 rfl

/-! ## Executions that break consistency and monotonicity -/

/-- C3, failing execution: with two cells, the reader collects cell 0, the writer then
completes `update(0, 7)` and `update(1, 8)`, the reader collects cell 1 and its verify
pass finds no stamp above `maxStamp = 1`. The call returns `[0, 8]`, and in no state
between its invocation and its return do the cells hold `[0, 8]`. -/
theorem snapshot_returns_values_never_held :
    ∃ start states final,
      System.initial 2 2 = .ok start ∧
      trace start staleCollectSchedule = .ok states ∧
      states.length = 14 ∧
      states.getLast? = some final ∧
      final.history.head? = some (.snapshotReturn 0 [0, 8]) ∧
      (∀ s ∈ states, s.values ≠ [0, 8]) ∧
      states.map System.values
        = [[0, 0], [0, 0], [0, 0], [0, 0], [0, 0], [7, 0], [7, 0], [7, 0], [7, 8], [7, 8],
           [7, 8], [7, 8], [7, 8], [7, 8]] := by
  refine ⟨_, _, _, rfl, rfl, ?_, rfl, ?_, ?_, ?_⟩
  · decide
  · decide
  · decide
  · decide

/-- C4, failing execution: writer 0 loads stamp `0`, writer 1 completes two updates of
the same cell (stamp `2`), a first `snapshot()` collects stamp `2` and returns, then
writer 0 stores stamp `0 + 1`: the stamp of the cell goes from `2` to `1` in one step, and
a second `snapshot()`, called after the first has returned, collects stamp `1`. -/
theorem version_decreases_under_race :
    ∃ start states,
      System.initial 1 3 = .ok start ∧
      trace start lostUpdateSchedule = .ok states ∧
      states.map System.stamps
        = [[0], [0], [0], [0], [0], [1], [1], [1], [2], [2], [2], [2], [2], [2], [1], [1],
           [1]] ∧
      (states[10]?.bind (fun s => s.threads[2]?)) = some (.collect 1 [⟨7, 2⟩] 2) ∧
      (states[13]?.bind (fun s => s.history.head?)) = some (.snapshotReturn 2 [7]) ∧
      (states[15]?.bind (fun s => s.history.head?)) = some (.snapshotCall 2) ∧
      (states[16]?.bind (fun s => s.threads[2]?)) = some (.collect 1 [⟨5, 1⟩] 1) := by
  refine ⟨_, _, rfl, rfl, ?_, ?_, ?_, ?_, ?_⟩
  · decide
  · decide
  · decide
  · decide
  · decide

/-! ## The graph of `step` -/

theorem step_inv {s s' : System} {a : Action} (h : step s a = .ok s') : StepCase s a s' := by
  cases a with
  | callUpdate tid loc value =>
    simp only [step] at h
    split at h
    · rename_i hpc
      cases h
      exact StepCase.callUpdate s tid loc value hpc
    · cases h
  | callSnapshot tid =>
    simp only [step] at h
    split at h
    · rename_i hpc
      cases h
      exact StepCase.callSnapshot s tid hpc
    · cases h
  | run tid =>
    simp only [step] at h
    split at h
    · rename_i pc hpc
      cases pc with
      | idle => cases h
      | updateLoad loc value =>
        simp only [runThread] at h
        obtain ⟨old, h1, h⟩ := bind_ok h
        cases h
        exact StepCase.load s tid loc value old hpc h1
      | updateStore loc value old =>
        simp only [runThread] at h
        obtain ⟨array, h1, h⟩ := bind_ok h
        cases h
        exact StepCase.store s tid loc value old array hpc h1
      | collect i ls m =>
        simp only [runThread] at h
        split at h
        · rename_i hi
          obtain ⟨loaded, h1, h⟩ := bind_ok h
          obtain ⟨ls', h2, h⟩ := bind_ok h
          obtain ⟨kept, h3, h⟩ := bind_ok h
          cases h
          exact StepCase.collect s tid i ls m loaded ls' kept hpc hi h1 h2 h3
        · rename_i hi
          cases h
          exact StepCase.collectDone s tid i ls m hpc hi
      | verify i ls m =>
        simp only [runThread] at h
        split at h
        · rename_i hi
          obtain ⟨cur, h1, h⟩ := bind_ok h
          split at h
          · rename_i hgt
            cases h
            exact StepCase.restart s tid i ls m cur hpc hi h1 hgt
          · rename_i hgt
            cases h
            exact StepCase.verify s tid i ls m cur hpc hi h1 hgt
        · rename_i hi
          obtain ⟨result, h1, h⟩ := bind_ok h
          cases h
          exact StepCase.ret s tid i ls m result hpc hi h1
    · cases h

theorem step_of_case {s s' : System} {a : Action} (h : StepCase s a s') :
    step s a = .ok s' := by
  cases h with
  | callUpdate tid loc value hpc => simp only [step, hpc]
  | callSnapshot tid hpc => simp only [step, hpc]
  | load tid loc value old hpc h1 =>
    simp only [step, hpc, runThread, h1, ok_bind, pure_eq_ok]
  | store tid loc value old array hpc h1 =>
    simp only [step, hpc, runThread, h1, ok_bind, pure_eq_ok]
  | collect tid i ls m loaded ls' kept hpc hi h1 h2 h3 =>
    simp only [step, hpc, runThread, hi, if_true, h1, h2, h3, ok_bind, pure_eq_ok]
  | collectDone tid i ls m hpc hi =>
    simp only [step, hpc, runThread, hi, if_false, pure_eq_ok]
  | restart tid i ls m cur hpc hi h1 hgt =>
    simp only [step, hpc, runThread, hi, if_true, h1, ok_bind, hgt, pure_eq_ok]
  | verify tid i ls m cur hpc hi h1 hgt =>
    simp only [step, hpc, runThread, hi, if_true, h1, ok_bind, hgt, if_false, pure_eq_ok]
  | ret tid i ls m result hpc hi h1 =>
    simp only [step, hpc, runThread, hi, if_false, h1, ok_bind, pure_eq_ok]

/-! ## No fabricated values -/

theorem thread_after_set {ts : List Pc} {tid t : Nat} {pc p : Pc}
    (h : (ts.set tid pc)[t]? = some p) : (t = tid ∧ p = pc) ∨ ts[t]? = some p := by
  rw [List.getElem?_set] at h
  by_cases ht : tid = t
  · rw [if_pos ht] at h
    split at h
    · left
      exact ⟨ht.symm, (Option.some.inj h).symm⟩
    · cases h
  · rw [if_neg ht] at h
    right
    exact h

theorem Accounted.later {history : List Event} {loc : Nat} {c : TimestampValue}
    (e : Event) (h : Accounted history loc c) : Accounted (e :: history) loc c := by
  rcases h with h | ⟨tid, h1, h2⟩
  · left
    exact h
  · right
    exact ⟨tid, List.mem_cons_of_mem _ h1, List.mem_cons_of_mem _ h2⟩

theorem accounted_freshBuffer (history : List Event) (n j : Nat) (c : TimestampValue)
    (h : (freshBuffer n)[j]? = some c) : Accounted history j c := by
  left
  simp only [freshBuffer, List.getElem?_replicate] at h
  split at h
  · exact (Option.some.inj h).symm
  · cases h

theorem returns_later {history : List Event} {e : Event}
    (hne : ∀ tid r, e ≠ Event.snapshotReturn tid r)
    (hold : ∀ (post : List Event) (tid : Nat) (r : List Int) (pre : List Event),
      history = post ++ Event.snapshotReturn tid r :: pre →
      ∀ (i : Nat) (v : Int), r[i]? = some v →
        v = 0 ∨ ∃ t, Event.updateCall t (i : Int) v ∈ pre) :
    ∀ (post : List Event) (tid : Nat) (r : List Int) (pre : List Event),
      e :: history = post ++ Event.snapshotReturn tid r :: pre →
      ∀ (i : Nat) (v : Int), r[i]? = some v →
        v = 0 ∨ ∃ t, Event.updateCall t (i : Int) v ∈ pre := by
  intro post tid r pre heq
  cases post with
  | nil =>
    simp only [List.nil_append, List.cons.injEq] at heq
    exact absurd heq.1 (hne tid r)
  | cons x post =>
    simp only [List.cons_append, List.cons.injEq] at heq
    exact hold post tid r pre heq.2

theorem inv_initial (size nthreads : Nat) (s : System)
    (h : System.initial size nthreads = .ok s) : Inv s := by
  simp only [System.initial, construct_eq, ok_bind, pure_eq_ok, Except.ok.injEq] at h
  subst h
  constructor
  · intro i c hc
    left
    simp only [List.getElem?_replicate] at hc
    split at hc
    · exact (Option.some.inj hc).symm
    · cases hc
  · intro tid pc loc v hpc hpend
    simp only [List.getElem?_replicate] at hpc
    split at hpc
    · cases Option.some.inj hpc
      cases hpend
    · cases hpc
  · intro tid pc ls hpc hbuf
    simp only [List.getElem?_replicate] at hpc
    split at hpc
    · cases Option.some.inj hpc
      cases hbuf
    · cases hpc
  · intro post tid r pre heq
    simp at heq

theorem inv_step {s s' : System} {a : Action} (hinv : Inv s) (h : StepCase s a s') :
    Inv s' := by
  cases h with
  | callUpdate tid loc value hpc =>
    constructor
    · intro i c hc
      exact (hinv.cells i c hc).later _
    · intro t pc l v ht hpend
      rcases thread_after_set ht with ⟨rfl, rfl⟩ | ht
      · cases hpend
        exact List.mem_cons_self _ _
      · exact List.mem_cons_of_mem _ (hinv.pending t pc l v ht hpend)
    · intro t pc ls ht hbuf
      rcases thread_after_set ht with ⟨rfl, rfl⟩ | ht
      · cases hbuf
      · obtain ⟨h1, h2⟩ := hinv.buffers t pc ls ht hbuf
        exact ⟨h1, fun j c hj => (h2 j c hj).later _⟩
    · exact returns_later (fun _ _ => by simp) hinv.returns
  | callSnapshot tid hpc =>
    constructor
    · intro i c hc
      exact (hinv.cells i c hc).later _
    · intro t pc l v ht hpend
      rcases thread_after_set ht with ⟨rfl, rfl⟩ | ht
      · cases hpend
      · exact List.mem_cons_of_mem _ (hinv.pending t pc l v ht hpend)
    · intro t pc ls ht hbuf
      rcases thread_after_set ht with ⟨rfl, rfl⟩ | ht
      · cases hbuf
        exact ⟨by simp [freshBuffer], fun j c hj => accounted_freshBuffer _ _ j c hj⟩
      · obtain ⟨h1, h2⟩ := hinv.buffers t pc ls ht hbuf
        exact ⟨h1, fun j c hj => (h2 j c hj).later _⟩
    · exact returns_later (fun _ _ => by simp) hinv.returns
  | load tid loc value old hpc h1 =>
    constructor
    · exact hinv.cells
    · intro t pc l v ht hpend
      rcases thread_after_set ht with ⟨rfl, rfl⟩ | ht
      · exact hinv.pending t _ l v hpc hpend
      · exact hinv.pending t pc l v ht hpend
    · intro t pc ls ht hbuf
      rcases thread_after_set ht with ⟨rfl, rfl⟩ | ht
      · cases hbuf
      · exact hinv.buffers t pc ls ht hbuf
    · exact hinv.returns
  | store tid loc value old array hpc h1 =>
    obtain ⟨h0, hlt, harr⟩ := writeAt_ok h1
    have hcall := hinv.pending tid _ loc value hpc rfl
    constructor
    · intro i c hc
      simp only [harr, List.getElem?_set] at hc
      by_cases hi : loc.toNat = i
      · rw [if_pos hi, if_pos hlt] at hc
        cases Option.some.inj hc
        have hloc : (i : Int) = loc := by omega
        right
        refine ⟨tid, ?_, ?_⟩
        · rw [hloc]
          exact List.mem_cons_self _ _
        · rw [hloc]
          exact List.mem_cons_of_mem _ hcall
      · rw [if_neg hi] at hc
        exact (hinv.cells i c hc).later _
    · intro t pc l v ht hpend
      rcases thread_after_set ht with ⟨rfl, rfl⟩ | ht
      · cases hpend
      · exact List.mem_cons_of_mem _ (hinv.pending t pc l v ht hpend)
    · intro t pc ls ht hbuf
      rcases thread_after_set ht with ⟨rfl, rfl⟩ | ht
      · cases hbuf
      · obtain ⟨h1, h2⟩ := hinv.buffers t pc ls ht hbuf
        exact ⟨h1, fun j c hj => (h2 j c hj).later _⟩
    · exact returns_later (fun _ _ => by simp) hinv.returns
  | collect tid i ls m loaded ls' kept hpc hi h1 h2 h3 =>
    obtain ⟨hb1, hb2⟩ := hinv.buffers tid _ ls hpc rfl
    obtain ⟨_, hlt, hls⟩ := writeAt_ok h2
    obtain ⟨_, hload⟩ := readAt_ok h1
    simp only [Int.toNat_ofNat] at hlt hls hload
    constructor
    · exact hinv.cells
    · intro t pc l v ht hpend
      rcases thread_after_set ht with ⟨rfl, rfl⟩ | ht
      · cases hpend
      · exact hinv.pending t pc l v ht hpend
    · intro t pc bs ht hbuf
      rcases thread_after_set ht with ⟨rfl, rfl⟩ | ht
      · cases hbuf
        refine ⟨by rw [hls, List.length_set]; exact hb1, ?_⟩
        intro j c hj
        rw [hls, List.getElem?_set] at hj
        by_cases hij : i = j
        · rw [if_pos hij, if_pos hlt] at hj
          cases Option.some.inj hj
          subst hij
          exact hinv.cells i _ hload
        · rw [if_neg hij] at hj
          exact hb2 j c hj
      · exact hinv.buffers t pc bs ht hbuf
    · exact hinv.returns
  | collectDone tid i ls m hpc hi =>
    constructor
    · exact hinv.cells
    · intro t pc l v ht hpend
      rcases thread_after_set ht with ⟨rfl, rfl⟩ | ht
      · cases hpend
      · exact hinv.pending t pc l v ht hpend
    · intro t pc bs ht hbuf
      rcases thread_after_set ht with ⟨rfl, rfl⟩ | ht
      · cases hbuf
        exact hinv.buffers t _ ls hpc rfl
      · exact hinv.buffers t pc bs ht hbuf
    · exact hinv.returns
  | restart tid i ls m cur hpc hi h1 hgt =>
    constructor
    · exact hinv.cells
    · intro t pc l v ht hpend
      rcases thread_after_set ht with ⟨rfl, rfl⟩ | ht
      · cases hpend
      · exact hinv.pending t pc l v ht hpend
    · intro t pc bs ht hbuf
      rcases thread_after_set ht with ⟨rfl, rfl⟩ | ht
      · cases hbuf
        exact ⟨by simp [freshBuffer], fun j c hj => accounted_freshBuffer _ _ j c hj⟩
      · exact hinv.buffers t pc bs ht hbuf
    · exact hinv.returns
  | verify tid i ls m cur hpc hi h1 hgt =>
    constructor
    · exact hinv.cells
    · intro t pc l v ht hpend
      rcases thread_after_set ht with ⟨rfl, rfl⟩ | ht
      · cases hpend
      · exact hinv.pending t pc l v ht hpend
    · intro t pc bs ht hbuf
      rcases thread_after_set ht with ⟨rfl, rfl⟩ | ht
      · cases hbuf
        exact hinv.buffers t _ ls hpc rfl
      · exact hinv.buffers t pc bs ht hbuf
    · exact hinv.returns
  | ret tid i ls m result hpc hi h1 =>
    obtain ⟨hb1, hb2⟩ := hinv.buffers tid _ ls hpc rfl
    rw [← hb1, taketheSanpshot_eq] at h1
    cases h1
    constructor
    · intro i c hc
      exact (hinv.cells i c hc).later _
    · intro t pc l v ht hpend
      rcases thread_after_set ht with ⟨rfl, rfl⟩ | ht
      · cases hpend
      · exact List.mem_cons_of_mem _ (hinv.pending t pc l v ht hpend)
    · intro t pc bs ht hbuf
      rcases thread_after_set ht with ⟨rfl, rfl⟩ | ht
      · cases hbuf
      · obtain ⟨h1, h2⟩ := hinv.buffers t pc bs ht hbuf
        exact ⟨h1, fun j c hj => (h2 j c hj).later _⟩
    · intro post t r pre heq
      cases post with
      | nil =>
        simp only [List.nil_append, List.cons.injEq, Event.snapshotReturn.injEq] at heq
        obtain ⟨⟨_, hr⟩, hpre⟩ := heq
        subst hr hpre
        intro j v hv
        rw [List.getElem?_map] at hv
        cases hc : ls[j]? with
        | none => rw [hc] at hv; cases hv
        | some c =>
          rw [hc] at hv
          cases Option.some.inj hv
          rcases hb2 j c hc with hz | ⟨w, _, hw⟩
          · left
            rw [hz]
          · right
            exact ⟨w, hw⟩
      | cons x post =>
        simp only [List.cons_append, List.cons.injEq] at heq
        exact hinv.returns post t r pre heq.2

theorem inv_reachable {s : System} (h : Reachable s) : Inv s := by
  induction h with
  | initial size nthreads s h => exact inv_initial size nthreads s h
  | step s s' a _ hstep ih => exact inv_step ih (step_inv hstep)

theorem reachable_exec (sched : List Action) :
    ∀ (s s' : System), Reachable s → exec s sched = .ok s' → Reachable s' := by
  induction sched with
  | nil =>
    intro s s' hs h
    cases h
    exact hs
  | cons a rest ih =>
    intro s s' hs h
    simp only [exec] at h
    obtain ⟨mid, h1, h2⟩ := bind_ok h
    exact ih mid s' (Reachable.step s mid a hs h1) h2

/-- C5. Atomic pairing, no fabricated values: in every reachable state the pair held by
cell `i` is the initial pair `(0, 0)` or the pair written by the store step of an
`update(i, v)` call, with `v` its value field; and every value that a `snapshot()` has
returned at position `i` is `0` or the value argument of an `update(i, .)` call invoked
before that snapshot returned. -/
theorem no_fabricated_values (s : System) (h : Reachable s) :
    (∀ (i : Nat) (c : TimestampValue), s.object.array[i]? = some c →
      c = ⟨0, 0⟩ ∨
      ∃ tid, Event.store tid (i : Int) c ∈ s.history ∧
        Event.updateCall tid (i : Int) c.value ∈ s.history) ∧
    (∀ (post : List Event) (tid : Nat) (r : List Int) (pre : List Event),
      s.history = post ++ Event.snapshotReturn tid r :: pre →
      ∀ (i : Nat) (v : Int), r[i]? = some v →
        v = 0 ∨ ∃ t, Event.updateCall t (i : Int) v ∈ pre) :=
  ⟨(inv_reachable h).cells, (inv_reachable h).returns⟩

/-- Witness of C5: the state reached by `staleCollectSchedule`, in which a snapshot has
returned `[0, 8]`. -/
theorem no_fabricated_values_witness :
    Reachable staleCollectFinal ∧
    (∀ (i : Nat) (c : TimestampValue), staleCollectFinal.object.array[i]? = some c →
      c = ⟨0, 0⟩ ∨
      ∃ tid, Event.store tid (i : Int) c ∈ staleCollectFinal.history ∧
        Event.updateCall tid (i : Int) c.value ∈ staleCollectFinal.history) ∧
    (∀ (post : List Event) (tid : Nat) (r : List Int) (pre : List Event),
      staleCollectFinal.history = post ++ Event.snapshotReturn tid r :: pre →
      ∀ (i : Nat) (v : Int), r[i]? = some v →
        v = 0 ∨ ∃ t, Event.updateCall t (i : Int) v ∈ pre) := by
  have hreach : Reachable staleCollectFinal :=
    reachable_exec staleCollectSchedule _ _ (Reachable.initial 2 2 _ rfl) (by rfl)
  exact ⟨hreach, no_fabricated_values staleCollectFinal hreach⟩

/-! ## Versions under uncontended stores -/

theorem stamps_step {s s' : System} {a : Action} (h : StepCase s a s')
    (hu : uncontended s a = true) :
    s'.object.snap_size = s.object.snap_size ∧
    s'.object.array.length = s.object.array.length ∧
    ∀ (i : Nat) (c : TimestampValue), s.object.array[i]? = some c →
      ∃ c', s'.object.array[i]? = some c' ∧ c.stamp ≤ c'.stamp := by
  cases h with
  | callUpdate tid loc value hpc => exact ⟨rfl, rfl, fun i c hc => ⟨c, hc, le_refl _⟩⟩
  | callSnapshot tid hpc => exact ⟨rfl, rfl, fun i c hc => ⟨c, hc, le_refl _⟩⟩
  | load tid loc value old hpc h1 => exact ⟨rfl, rfl, fun i c hc => ⟨c, hc, le_refl _⟩⟩
  | collect tid i ls m loaded ls' kept hpc hi h1 h2 h3 =>
    exact ⟨rfl, rfl, fun i c hc => ⟨c, hc, le_refl _⟩⟩
  | collectDone tid i ls m hpc hi => exact ⟨rfl, rfl, fun i c hc => ⟨c, hc, le_refl _⟩⟩
  | restart tid i ls m cur hpc hi h1 hgt =>
    exact ⟨rfl, rfl, fun i c hc => ⟨c, hc, le_refl _⟩⟩
  | verify tid i ls m cur hpc hi h1 hgt =>
    exact ⟨rfl, rfl, fun i c hc => ⟨c, hc, le_refl _⟩⟩
  | ret tid i ls m result hpc hi h1 => exact ⟨rfl, rfl, fun i c hc => ⟨c, hc, le_refl _⟩⟩
  | store tid loc value old array hpc h1 =>
    obtain ⟨h0, hlt, harr⟩ := writeAt_ok h1
    subst harr
    refine ⟨rfl, by simp, ?_⟩
    intro i c hc
    simp only [List.getElem?_set]
    by_cases hi : loc.toNat = i
    · rw [if_pos hi, if_pos hlt]
      refine ⟨_, rfl, ?_⟩
      subst hi
      obtain ⟨n, rfl⟩ := Int.eq_ofNat_of_zero_le h0
      simp only [Int.toNat_ofNat] at hc hlt
      simp only [uncontended, hpc, readAt_of_getElem? _ _ _ hc, Bool.and_eq_true,
        decide_eq_true_eq] at hu
      obtain ⟨⟨hcur, hmin⟩, hmax⟩ := hu
      show c.stamp ≤ wrapInt (old.stamp + 1)
      rw [wrapInt_succ old.stamp hmin hmax, hcur]
      omega
    · rw [if_neg hi]
      exact ⟨c, hc, le_refl _⟩

theorem stamps_exec (sched : List Action) :
    ∀ (s s' : System), exec s sched = .ok s' → uncontendedRun s sched = true →
    s'.object.snap_size = s.object.snap_size ∧
    s'.object.array.length = s.object.array.length ∧
    ∀ (i : Nat) (c : TimestampValue), s.object.array[i]? = some c →
      ∃ c', s'.object.array[i]? = some c' ∧ c.stamp ≤ c'.stamp := by
  induction sched with
  | nil =>
    intro s s' h _
    cases h
    exact ⟨rfl, rfl, fun i c hc => ⟨c, hc, le_refl _⟩⟩
  | cons a rest ih =>
    intro s s' h hu
    simp only [exec] at h
    obtain ⟨mid, h1, h2⟩ := bind_ok h
    simp only [uncontendedRun, h1, Bool.and_eq_true] at hu
    obtain ⟨g1, g2, g3⟩ := stamps_step (step_inv h1) hu.1
    obtain ⟨k1, k2, k3⟩ := ih mid s' h2 hu.2
    refine ⟨k1.trans g1, k2.trans g2, ?_⟩
    intro i c hc
    obtain ⟨c1, hc1, hle1⟩ := g3 i c hc
    obtain ⟨c2, hc2, hle2⟩ := k3 i c1 hc1
    exact ⟨c2, hc2, le_trans hle1 hle2⟩

theorem collect_step_reads {s s' : System} {t i : Nat} {ls : List TimestampValue} {m : Int}
    (hpc : s.threads[t]? = some (.collect i ls m)) (hi : i < s.object.snap_size)
    (h : step s (.run t) = .ok s') :
    s'.object = s.object ∧
    ∃ c ls' m', s.object.array[i]? = some c ∧
      s'.threads[t]? = some (.collect (i + 1) ls' m') ∧ ls'[i]? = some c := by
  simp only [step, hpc, runThread, hi, if_true] at h
  obtain ⟨loaded, h1, h⟩ := bind_ok h
  obtain ⟨ls', h2, h⟩ := bind_ok h
  obtain ⟨kept, h3, h⟩ := bind_ok h
  cases h
  obtain ⟨_, hload⟩ := readAt_ok h1
  obtain ⟨_, hlt, hls⟩ := writeAt_ok h2
  simp only [Int.toNat_ofNat] at hload hlt hls
  have ht : t < s.threads.length := by
    by_contra hge
    rw [List.getElem?_eq_none (by omega)] at hpc
    cases hpc
  refine ⟨rfl, loaded, ls', max m kept.stamp, hload, ?_, ?_⟩
  · simp only [List.getElem?_set, if_true, ht]
  · rw [hls, List.getElem?_set, if_pos rfl, if_pos hlt]

/-- C4, amended. Version monotonicity: along every execution in which each store step
finds in its cell the stamp that its update loaded (no other store to that location since
the load) and that stamp is an `int` below the largest one, the array keeps its length and
the stamp held by each cell does not decrease; hence when a `snapshot()` collects cell `i`
before the execution and another collects cell `i` after it, the stamp the second
collects is at least the stamp the first collected. -/
theorem version_monotone_uncontended (s s' : System) (sched : List Action)
    (h : exec s sched = .ok s') (hu : uncontendedRun s sched = true) :
    s'.stamps.length = s.stamps.length ∧
    (∀ (i : Nat) (a : Int), s.stamps[i]? = some a →
      ∃ b, s'.stamps[i]? = some b ∧ a ≤ b) ∧
    (∀ (s0 s1 : System) (t1 t2 i : Nat) (ls1 ls2 : List TimestampValue) (m1 m2 : Int),
      s0.threads[t1]? = some (.collect i ls1 m1) → i < s0.object.snap_size →
      step s0 (.run t1) = .ok s →
      s'.threads[t2]? = some (.collect i ls2 m2) → step s' (.run t2) = .ok s1 →
      ∃ first m1' second m2' c1 c2,
        s.threads[t1]? = some (.collect (i + 1) first m1') ∧ first[i]? = some c1 ∧
        s1.threads[t2]? = some (.collect (i + 1) second m2') ∧ second[i]? = some c2 ∧
        c1.stamp ≤ c2.stamp) := by
  obtain ⟨g1, g2, g3⟩ := stamps_exec sched s s' h hu
  refine ⟨by simp [System.stamps, g2], ?_, ?_⟩
  · intro i a ha
    simp only [System.stamps, List.getElem?_map] at ha ⊢
    cases hc : s.object.array[i]? with
    | none => rw [hc] at ha; cases ha
    | some c =>
      rw [hc] at ha
      cases Option.some.inj ha
      obtain ⟨c', hc', hle⟩ := g3 i c hc
      exact ⟨c'.stamp, by rw [hc']; rfl, hle⟩
  · intro s0 s1 t1 t2 i ls1 ls2 m1 m2 hpc1 hi hstep1 hpc2 hstep2
    obtain ⟨hobj, c1, first, m1', hread1, hthread1, hfirst⟩ :=
      collect_step_reads hpc1 hi hstep1
    have hi2 : i < s'.object.snap_size := by rw [g1, hobj]; exact hi
    obtain ⟨_, c2, second, m2', hread2, hthread2, hsecond⟩ :=
      collect_step_reads hpc2 hi2 hstep2
    rw [← hobj] at hread1
    obtain ⟨c', hc', hle⟩ := g3 i c1 hread1
    rw [hread2] at hc'
    cases Option.some.inj hc'
    exact ⟨first, m1', second, m2', c1, c2, hthread1, hfirst, hthread2, hsecond, hle⟩

/-- Witness of the amended C4: reader 2 collects cell 0 (stamp `0`), two writers update
different cells, reader 3 then collects cell 0 (stamp `1`). -/
theorem version_monotone_uncontended_witness :
    exec disjointStart disjointSchedule = .ok disjointFinal ∧
    uncontendedRun disjointStart disjointSchedule = true ∧
    step disjointBefore (.run 2) = .ok disjointStart ∧
    step disjointFinal (.run 3) = .ok disjointAfter ∧
    (∃ first m1' second m2' c1 c2,
      disjointStart.threads[2]? = some (.collect (0 + 1) first m1') ∧
      first[0]? = some c1 ∧
      disjointAfter.threads[3]? = some (.collect (0 + 1) second m2') ∧
      second[0]? = some c2 ∧ c1.stamp ≤ c2.stamp) ∧
    disjointFinal.stamps.length = disjointStart.stamps.length ∧
    (∀ (i : Nat) (a : Int), disjointStart.stamps[i]? = some a →
      ∃ b, disjointFinal.stamps[i]? = some b ∧ a ≤ b) ∧
    (∀ (s0 s1 : System) (t1 t2 i : Nat) (ls1 ls2 : List TimestampValue) (m1 m2 : Int),
      s0.threads[t1]? = some (.collect i ls1 m1) → i < s0.object.snap_size →
      step s0 (.run t1) = .ok disjointStart →
      disjointFinal.threads[t2]? = some (.collect i ls2 m2) →
      step disjointFinal (.run t2) = .ok s1 →
      ∃ first m1' second m2' c1 c2,
        disjointStart.threads[t1]? = some (.collect (i + 1) first m1') ∧
        first[i]? = some c1 ∧
        s1.threads[t2]? = some (.collect (i + 1) second m2') ∧ second[i]? = some c2 ∧
        c1.stamp ≤ c2.stamp) :=
  ⟨by rfl, by rfl, by rfl, by rfl,
    (version_monotone_uncontended disjointStart disjointFinal disjointSchedule
      (by rfl) (by rfl)).2.2 disjointBefore disjointAfter 2 3 0 _ _ _ _
      (by rfl) (by decide) (by rfl) (by rfl) (by rfl),
    version_monotone_uncontended disjointStart disjointFinal disjointSchedule
      (by rfl) (by rfl)⟩

end WFS
